import Mathlib

/-!
Shallow embedding of the core of the `deb-rs` Debian packaging library,
together with proofs about its version comparison engine, dependency
filtering engine, paragraph stream reader and digest codec.

Strings from the Rust sources are modelled as `List Char` (a Rust `str` is a
sequence of `char`s; where the source measures byte lengths of UTF-8 data we
model that with an explicit byte-size function).  Rust `Ordering` is Lean's
`Ordering`; fallible Rust functions returning `Result` are modelled with
`Except`.
-/

deriving instance DecidableEq for Except

namespace DebRs

/-! ## Version engine: character classes (src/version/compare.rs) -/

/-- Rust `char::is_ascii_lowercase`. -/
def isAsciiLower (c : Char) : Bool := 97 ≤ c.toNat && c.toNat ≤ 122

/-- Rust `char::is_ascii_uppercase`. -/
def isAsciiUpper (c : Char) : Bool := 65 ≤ c.toNat && c.toNat ≤ 90

/-- Rust `char::is_ascii_digit`. -/
def isAsciiDigit (c : Char) : Bool := 48 ≤ c.toNat && c.toNat ≤ 57

/-- Embedding of `is_version_digit` (compare.rs line 86): `ch.is_ascii_digit()`. -/
def isVersionDigit (c : Char) : Bool := isAsciiDigit c

/-- Embedding of `is_version_string` (compare.rs lines 90-98): ASCII letters
and the punctuation `.` `-` `+` `:` `~`. -/
def isVersionString (c : Char) : Bool :=
  isAsciiLower c || isAsciiUpper c || c == '.' || c == '-' || c == '+' || c == ':' || c == '~'

/-- Embedding of `version_char_to_num` (compare.rs lines 100-124): `~` maps to
0, letters to their own codepoint, and the remaining punctuation to its
codepoint plus 90.  (The source panics on characters that are not version
string characters; that branch is unreachable from the comparison routines on
checked versions, so it is omitted here.) -/
def versionCharToNum (c : Char) : Nat :=
  if c == '~' then 0
  else if isAsciiLower c || isAsciiUpper c then c.toNat
  else c.toNat + 90

/-- Embedding of `compare_version_char` (compare.rs lines 126-128). -/
def compareVersionChar (l r : Char) : Ordering :=
  compare (versionCharToNum l) (versionCharToNum r)

/-! ## Version engine: run decomposition (`VersionCompareIterator`) -/

/-- Embedding of the `VersionComponent` enum (compare.rs lines 80-84). -/
inductive VersionComponent where
  | str : List Char → VersionComponent
  | num : List Char → VersionComponent
deriving DecidableEq, Repr

/-- Embedding of the `VersionCompareIterator` state machine
(compare.rs lines 216-274), with all calls to `next` fused into one pass over
the characters.  The first argument is the `in_string` flag, the second the
`matched` buffer of the run being globbed, the third the remaining input.

Per `next`: a character of the current kind is pushed onto `matched`
(the `loop`); a character of the other kind ends the run, which is yielded,
and the flag flips (we fuse the first push of the new run, which necessarily
accepts that same character); at end of input the pending run is yielded and,
when the iterator is then in string mode, one final empty string component is
yielded (the `lch.is_none()` arm).  On a character that is neither a
version-string character nor a digit the source iterator yields
`Err(Malformed)` forever and the surrounding `flatten().collect()` never
terminates; we truncate the component list at that point (such characters
never occur in checked versions). -/
def versionRunsGo : Bool → List Char → List Char → List VersionComponent
  | true, matched, [] => [VersionComponent.str matched]
  | false, matched, [] => [VersionComponent.num matched, VersionComponent.str []]
  | inStr, matched, c :: cs =>
    let isDigit := isVersionDigit c
    let isString := isVersionString c
    if !isDigit && !isString then []
    else if (inStr && isDigit) || (!inStr && isString) then
      (if inStr then VersionComponent.str matched else VersionComponent.num matched)
        :: versionRunsGo (!inStr) [c] cs
    else
      versionRunsGo inStr (matched ++ [c]) cs

/-- Full component list of a version string: the iterator starts in string
mode with an empty `matched` buffer (compare.rs lines 66-76). -/
def versionRuns (s : List Char) : List VersionComponent := versionRunsGo true [] s

/-! ## Version engine: component comparison -/

/-- Pairwise lockstep comparison of characters under the Debian character
order; embedding of the `for`-loop of `compare_version_str_component`
(compare.rs lines 184-190), which returns at the first non-equal pair and
otherwise falls through when the zip is exhausted. -/
def cmpVersionCharsZip : List Char → List Char → Ordering
  | l :: ls, r :: rs =>
    match compareVersionChar l r with
    | .eq => cmpVersionCharsZip ls rs
    | v => v
  | _, _ => .eq

/-- Embedding of `compare_version_str_component` (compare.rs lines 182-214).
After the lockstep loop, `last_ch` is `last_idx + 1` (zero when either side is
empty); when the lengths differ the character of the longer side at position
`last_ch` decides: a `~` there makes the longer side smaller. -/
def compareVersionStrComponent (left right : List Char) : Ordering :=
  match cmpVersionCharsZip left right with
  | .eq =>
    let lastCh := if left.isEmpty || right.isEmpty then 0
                  else Nat.min left.length right.length - 1 + 1
    match compare left.length right.length with
    | .eq => .eq
    | .lt => if right[lastCh]? == some '~' then .gt else .lt
    | .gt => if left[lastCh]? == some '~' then .lt else .gt
  | v => v

/-- Pairwise lockstep comparison of characters by plain `char` order;
embedding of the `for`-loop of `compare_version_number_component`
(compare.rs lines 172-177). -/
def cmpCharsZip : List Char → List Char → Ordering
  | l :: ls, r :: rs =>
    match compare l r with
    | .eq => cmpCharsZip ls rs
    | v => v
  | _, _ => .eq

/-- Embedding of `compare_version_number_component` (compare.rs lines
163-180): strip leading zeros, compare lengths, then compare lexicographically. -/
def compareVersionNumberComponent (left right : List Char) : Ordering :=
  let l := left.dropWhile (· == '0')
  let r := right.dropWhile (· == '0')
  match compare l.length r.length with
  | .eq => cmpCharsZip l r
  | v => v

/-- Embedding of the zip-loop of `compare_version_str` (compare.rs lines
141-158): walk both component lists in lockstep, returning the first
non-equal component comparison; the loop ends (with `Equal`) when either list
runs out.  A string component paired with a number component panics in the
source; that case cannot occur because both lists alternate kinds starting
with a string component, and is mapped to `.eq` here. -/
def cmpRuns : List VersionComponent → List VersionComponent → Ordering
  | .str l :: ls, .str r :: rs =>
    match compareVersionStrComponent l r with
    | .eq => cmpRuns ls rs
    | v => v
  | .num l :: ls, .num r :: rs =>
    match compareVersionNumberComponent l r with
    | .eq => cmpRuns ls rs
    | v => v
  | _, _ => .eq

/-- Embedding of `compare_version_str` (compare.rs lines 130-161). -/
def compareVersionStr (left right : List Char) : Ordering :=
  cmpRuns (versionRuns left) (versionRuns right)

/-! ## Version value, validation and parsing (src/version/version.rs) -/

/-- Embedding of the `Error` enum of src/version/version.rs (lines 87-112). -/
inductive VersionError where
  | Empty
  | Malformed
  | InvalidEpoch
  | NoUpstreamVersion
  | NoDebianRevision
  | InvalidUpstreamVersion
  | InvalidDebianRevision
deriving DecidableEq, Repr

/-- Embedding of the `Version` struct (version.rs lines 40-82).  The `epoch`
is stored as a Rust `u64`; we model it as `Nat` (parsing enforces the
`i32::MAX` bound, construction from parts does not). -/
structure Version where
  epoch : Option Nat
  upstream_version : List Char
  debian_revision : Option (List Char)
deriving DecidableEq, Repr

/-- Character admissibility for the `upstream_version`, from the `check` loop
(version.rs lines 155-174): letters, digits, `~`, `+`, `.`, plus `:` when an
epoch is set and `-` when a revision is set. -/
def upstreamCharOk (hasEpoch hasRevision : Bool) (c : Char) : Bool :=
  isAsciiLower c || isAsciiUpper c || isAsciiDigit c || c == '~' || c == '+' || c == '.'
  || (c == ':' && hasEpoch) || (c == '-' && hasRevision)

/-- Character admissibility for the `debian_revision`, from the `check` loop
(version.rs lines 176-189). -/
def revisionCharOk (c : Char) : Bool :=
  isAsciiLower c || isAsciiUpper c || isAsciiDigit c || c == '~' || c == '+' || c == '.'

/-- Embedding of `Version::check` (version.rs lines 149-191): the first
character of a non-empty upstream must be a digit, every upstream character
must be admissible, and every revision character must be admissible.  The
source's early-return loops are equivalent to the `all` checks used here. -/
def Version.check (v : Version) : Except VersionError Unit :=
  let firstOk : Bool :=
    match v.upstream_version with
    | [] => true
    | c :: _ => isAsciiDigit c
  if !firstOk then .error .InvalidUpstreamVersion
  else if !(v.upstream_version.all (upstreamCharOk v.epoch.isSome v.debian_revision.isSome)) then
    .error .InvalidUpstreamVersion
  else
    match v.debian_revision with
    | some rev =>
      if !(rev.all revisionCharOk) then .error .InvalidDebianRevision else .ok ()
    | none => .ok ()

/-- Embedding of `Version::from_parts` (version.rs lines 117-129): build the
value and run `check`; note there is no bound check on the epoch here. -/
def Version.from_parts (epoch : Option Nat) (upstream_version : List Char)
    (debian_revision : Option (List Char)) : Except VersionError Version :=
  let ret : Version := ⟨epoch, upstream_version, debian_revision⟩
  match ret.check with
  | .error e => .error e
  | .ok _ => .ok ret

/-- Characters with the Unicode `White_Space` property, as trimmed by Rust's
`str::trim`. -/
def isRustWhitespace (c : Char) : Bool :=
  (0x9 ≤ c.toNat && c.toNat ≤ 0xD) || c.toNat == 0x20 || c.toNat == 0x85
  || c.toNat == 0xA0 || c.toNat == 0x1680
  || (0x2000 ≤ c.toNat && c.toNat ≤ 0x200A)
  || c.toNat == 0x2028 || c.toNat == 0x2029 || c.toNat == 0x202F
  || c.toNat == 0x205F || c.toNat == 0x3000

/-- Model of Rust `str::trim`: strip whitespace from both ends. -/
def rustTrim (s : List Char) : List Char :=
  ((s.dropWhile isRustWhitespace).reverse.dropWhile isRustWhitespace).reverse

/-- Split at the first occurrence of `sep`; models Rust
`splitn(2, sep)` yielding two pieces (`none` when `sep` does not occur,
in which case `splitn` yields the single piece unchanged). -/
def splitFirst (sep : Char) : List Char → Option (List Char × List Char)
  | [] => none
  | c :: cs =>
    if c == sep then some ([], cs)
    else
      match splitFirst sep cs with
      | none => none
      | some (a, b) => some (c :: a, b)

/-- Split at the last occurrence of `sep`; models Rust `rsplitn(2, sep)`
yielding (piece before the last `sep`, piece after it). -/
def splitLast (sep : Char) (s : List Char) : Option (List Char × List Char) :=
  match splitFirst sep s.reverse with
  | none => none
  | some (a, b) => some (b.reverse, a.reverse)

/-- Value of a digit string, most significant first. -/
def digitsToNat (s : List Char) : Nat :=
  s.foldl (fun a c => a * 10 + (c.toNat - 48)) 0

/-- Largest `u64`. -/
def u64Max : Nat := 18446744073709551615

/-- Largest `i32`; `dpkg`'s epoch bound (version.rs lines 207-210). -/
def i32Max : Nat := 2147483647

/-- Model of Rust `str::parse::<u64>`: an optional leading `+`, then one or
more ASCII digits, with the value fitting in 64 bits. -/
def parseU64 (s : List Char) : Option Nat :=
  let ds := match s with
    | '+' :: rest => rest
    | _ => s
  if ds.isEmpty then none
  else if ds.all isAsciiDigit then
    if digitsToNat ds ≤ u64Max then some (digitsToNat ds) else none
  else none

/-- Embedding of `FromStr for Version` (version.rs lines 194-252): trim the
input; split on the first `:` for the optional epoch (parsed as `u64` and
bounded by `i32::MAX`); reject an empty remainder; split on the last `-` for
the optional revision, rejecting an empty revision or upstream; run `check`. -/
def Version.fromStr (input : List Char) : Except VersionError Version :=
  let ver := rustTrim input
  let epochStep : Except VersionError (Option Nat × List Char) :=
    match splitFirst ':' ver with
    | none => .ok (none, ver)
    | some (epochStr, rest) =>
      match parseU64 epochStr with
      | none => .error .InvalidEpoch
      | some e =>
        if e > i32Max then .error .InvalidEpoch
        else .ok (some e, rest)
  match epochStep with
  | .error e => .error e
  | .ok (epoch, ver) =>
    if ver.isEmpty then .error .Empty
    else
      let revStep : Except VersionError (List Char × Option (List Char)) :=
        match splitLast '-' ver with
        | none => .ok (ver, none)
        | some (upstream, revision) =>
          if revision.isEmpty then .error .NoDebianRevision
          else if upstream.isEmpty then .error .NoUpstreamVersion
          else .ok (upstream, some revision)
      match revStep with
      | .error e => .error e
      | .ok (upstream, revision) =>
        if upstream.isEmpty then .error .NoUpstreamVersion
        else
          let ret : Version := ⟨epoch, upstream, revision⟩
          match ret.check with
          | .error e => .error e
          | .ok _ => .ok ret

/-- Embedding of `Ord::cmp for Version` (compare.rs lines 35-52): compare
epochs with 0 for absent, then upstream versions, then revisions with `"0"`
for absent. -/
def Version.cmp (a b : Version) : Ordering :=
  match compare (a.epoch.getD 0) (b.epoch.getD 0) with
  | .eq =>
    match compareVersionStr a.upstream_version b.upstream_version with
    | .eq =>
      compareVersionStr (a.debian_revision.getD ['0']) (b.debian_revision.getD ['0'])
    | v => v
  | v => v

/-! ## Architecture values (src/architecture/architecture.rs) -/

/-- Embedding of the `Architecture` struct (architecture.rs lines 44-56):
four lowercase field strings. -/
structure Architecture where
  abi : String
  libc : String
  os : String
  cpu : String
deriving DecidableEq, Repr

namespace Architecture

/-- Embedding of `Architecture::SOURCE` (architecture.rs lines 748-753). -/
def SOURCE : Architecture := ⟨"", "", "", "source"⟩

/-- Embedding of `Architecture::ALL` (architecture.rs lines 756-761). -/
def ALL : Architecture := ⟨"", "", "", "all"⟩

/-- Embedding of `Architecture::ANY` (architecture.rs lines 764-769). -/
def ANY : Architecture := ⟨"any", "any", "any", "any"⟩

/-- Embedding of `architecture::AMD64` from the arch table
(`simple_architecture_tuple!("amd64")` = base/gnu/linux/amd64). -/
def AMD64 : Architecture := ⟨"base", "gnu", "linux", "amd64"⟩

/-- Embedding of `architecture::SPARC` from the arch table
(`simple_architecture_tuple!("sparc")`). -/
def SPARC : Architecture := ⟨"base", "gnu", "linux", "sparc"⟩

/-- Field comparison of `Architecture::is` (architecture.rs lines 111-116):
the right (pattern) side `"any"` matches anything. -/
def fieldIs (left right : String) : Bool :=
  if right == "any" then true else left == right

/-- Embedding of `Architecture::is` (architecture.rs lines 103-127): a
`source`/`all` receiver only matches by equality; otherwise every field of
the pattern must be `"any"` or equal to the receiver's field. -/
def is (self other : Architecture) : Bool :=
  if self == SOURCE || self == ALL then self == other
  else
    fieldIs self.abi other.abi && fieldIs self.libc other.libc
      && fieldIs self.os other.os && fieldIs self.cpu other.cpu

end Architecture

/-! ## Architecture constraints (src/dependency/architecture.rs) -/

/-- Embedding of the `ArchConstraint` struct (dependency/architecture.rs
lines 36-46). -/
structure ArchConstraint where
  negated : Bool
  arch : Architecture
deriving DecidableEq, Repr

/-- Embedding of `ArchConstraint::matches` (dependency/architecture.rs lines
138-143): match the target against the constrained architecture, inverting
when negated. -/
def ArchConstraint.matches (self : ArchConstraint) (arch : Architecture) : Bool :=
  let matched := arch.is self.arch
  if self.negated then !matched else matched

/-- Embedding of `ArchConstraintsValidationError` (dependency/architecture.rs
lines 148-168). -/
inductive ArchConstraintsValidationError where
  | MixedNegations
deriving DecidableEq, Repr

/-- Embedding of the `ArchConstraints` struct (dependency/architecture.rs
lines 95-102). -/
structure ArchConstraints where
  arches : List ArchConstraint
deriving DecidableEq, Repr

/-- Embedding of `ArchConstraints::negation_policy` (dependency/architecture.rs
lines 177-206): all negated gives `true`, all non-negated gives `false`,
a mix is the `MixedNegations` error. -/
def ArchConstraints.negation_policy (self : ArchConstraints) :
    Except ArchConstraintsValidationError Bool :=
  let negations := self.arches.map (·.negated)
  if negations.all (· == true) then .ok true
  else if negations.all (· == false) then .ok false
  else .error .MixedNegations

/-- Embedding of `ArchConstraints::check` (dependency/architecture.rs lines
210-213). -/
def ArchConstraints.check (self : ArchConstraints) : Except ArchConstraintsValidationError Unit :=
  match self.negation_policy with
  | .error e => .error e
  | .ok _ => .ok ()

/-- Embedding of `ArchConstraints::matches` (dependency/architecture.rs lines
217-241): a mixed-negation list is passed through as always satisfied; an
all-positive list matches if any constraint matches; an all-negated list
matches if all constraints match. -/
def ArchConstraints.matches (self : ArchConstraints) (arch : Architecture) : Bool :=
  match self.negation_policy with
  | .error _ => true
  | .ok negated =>
    let ms := self.arches.map (·.matches arch)
    if !negated then ms.any (· == true) else ms.all (· == true)

/-! ## Build profiles (src/build_profile/build_profile.rs) -/

/-- Embedding of the `BuildProfile` enum (build_profile.rs lines 37-122). -/
inductive BuildProfile where
  | Cross
  | Pkg : String → String → BuildProfile
  | Stage1
  | Stage2
  | NoBiarch
  | NoCheck
  | NoCil
  | NoDoc
  | NoGir
  | NoGolang
  | NoInsttest
  | NoJava
  | NoPerl
  | NoPython
  | NoRuby
  | NoLua
  | NoGuile
  | NoOcaml
  | NoWasm
  | NoWindows
  | NoUdeb
  | UpstreamCargo
  | Unknown : String → BuildProfile
deriving DecidableEq, Repr

/-! ## Build profile constraints (src/dependency/build_profile.rs) -/

/-- Embedding of the `BuildProfileConstraint` struct
(dependency/build_profile.rs lines 35-45). -/
structure BuildProfileConstraint where
  negated : Bool
  build_profile : BuildProfile
deriving DecidableEq, Repr

/-- Embedding of `BuildProfileConstraint::matches`
(dependency/build_profile.rs lines 207-211): equality with the constrained
profile, inverted when negated. -/
def BuildProfileConstraint.matches (self : BuildProfileConstraint)
    (build_profile : BuildProfile) : Bool :=
  let matched := self.build_profile == build_profile
  if self.negated then !matched else matched

/-- Embedding of the `BuildProfileConstraints` struct
(dependency/build_profile.rs lines 95-98): one `<...>` group. -/
structure BuildProfileConstraints where
  build_profiles : List BuildProfileConstraint
deriving DecidableEq, Repr

/-- Embedding of `BuildProfileConstraints::matches`
(dependency/build_profile.rs lines 217-223): some constraint of the group is
matched by every one of the active profiles. -/
def BuildProfileConstraints.matches (self : BuildProfileConstraints)
    (build_profiles : List BuildProfile) : Bool :=
  self.build_profiles.any (fun bpc => build_profiles.all (fun bp => bpc.matches bp))

/-- Embedding of the `BuildProfileRestrictionFormula` struct
(dependency/build_profile.rs lines 145-149). -/
structure BuildProfileRestrictionFormula where
  build_profile_constraints : List BuildProfileConstraints
deriving DecidableEq, Repr

/-- Embedding of `BuildProfileRestrictionFormula::matches`
(dependency/build_profile.rs lines 229-234): every group must match. -/
def BuildProfileRestrictionFormula.matches (self : BuildProfileRestrictionFormula)
    (build_profile : List BuildProfile) : Bool :=
  self.build_profile_constraints.all (fun bpc => bpc.matches build_profile)

/-! ## Dependency AST and filtering (src/dependency) -/

/-- Embedding of the `VersionOperator` enum (dependency/version.rs). -/
inductive VersionOperator where
  | Equal
  | GreaterThan
  | LessThan
  | GreaterThanOrEqual
  | LessThanOrEqual
deriving DecidableEq, Repr

/-- Embedding of the `VersionConstraint` struct (dependency/version.rs). -/
structure VersionConstraint where
  operator : VersionOperator
  version : Version
deriving DecidableEq, Repr

/-- Embedding of the `Package` struct (dependency/package.rs lines 40-90). -/
structure Package where
  name : String
  arch : Option Architecture
  version_constraint : Option VersionConstraint
  arch_constraints : Option ArchConstraints
  build_profile_restriction_formula : Option BuildProfileRestrictionFormula
deriving DecidableEq, Repr

/-- Embedding of the `Relation` struct as used by the filter code
(dependency/dependency_filter.rs lines 34-44): a disjunction of packages. -/
structure Relation where
  packages : List Package
deriving DecidableEq, Repr

/-- Embedding of the `Dependency` struct (dependency/dependency.rs lines
38-41): a conjunction of relations. -/
structure Dependency where
  relations : List Relation
deriving DecidableEq, Repr

namespace Dependency

/-- Embedding of `Dependency::filter` (dependency/dependency_filter.rs lines
29-47): keep the packages satisfying the predicate in each relation, dropping
relations that become empty. -/
def filter (self : Dependency) (filter_fn : Package → Bool) : Dependency :=
  let relations := self.relations.foldr
    (fun relation acc =>
      let packages := relation.packages.filter filter_fn
      if packages.isEmpty then acc else ⟨packages⟩ :: acc)
    []
  ⟨relations⟩

/-- The per-package predicate of `Dependency::filter_for_arch`
(dependency/dependency_filter.rs lines 52-58). -/
def archFilterFn (arch : Architecture) (package : Package) : Bool :=
  match package.arch_constraints with
  | none => true
  | some arch_constraints => arch_constraints.matches arch

/-- Embedding of `Dependency::filter_for_arch`
(dependency/dependency_filter.rs lines 51-59). -/
def filter_for_arch (self : Dependency) (arch : Architecture) : Dependency :=
  self.filter (archFilterFn arch)

/-- The per-package predicate of `Dependency::filter_for_build_profiles`
(dependency/dependency_filter.rs lines 64-70). -/
def buildProfileFilterFn (profiles : List BuildProfile) (package : Package) : Bool :=
  match package.build_profile_restriction_formula with
  | none => true
  | some bprf => bprf.matches profiles

/-- Embedding of `Dependency::filter_for_build_profiles`
(dependency/dependency_filter.rs lines 63-71). -/
def filter_for_build_profiles (self : Dependency) (profiles : List BuildProfile) :
    Dependency :=
  self.filter (buildProfileFilterFn profiles)

end Dependency

/-! ## Paragraph stream reader (src/control/de/mod.rs) -/

/-- UTF-8 byte size of one character, as counted by Rust's `str::len` and
`BufRead::read_line`. -/
def utf8Size (c : Char) : Nat :=
  if c.toNat < 0x80 then 1
  else if c.toNat < 0x800 then 2
  else if c.toNat < 0x10000 then 3
  else 4

/-- UTF-8 byte length of a string, as counted by Rust's `str::len`. -/
def utf8Length (s : List Char) : Nat :=
  (s.map utf8Size).sum

/-- Embedding of the accumulation loop of `from_reader` (control/de/mod.rs
lines 120-147).  The reader is modelled as the list of lines that successive
`read_line` calls produce: each list element is one line including its
trailing newline (the final element may lack the newline at EOF), and after
the list is exhausted `read_line` returns 0.

Per iteration, `read_line` appends the line to `buf` and returns its byte
count: on 0 (EOF), a whitespace-only buffer is the `EndOfFile` error and
otherwise the buffer is decoded; on 1, a buffer that ends with a newline and
is not whitespace-only is decoded (this is the blank-separator case — a
single pushed `\n`), and otherwise reading continues; on any larger count
reading continues.  The result is the buffer handed to `from_str` together
with the lines not yet consumed, or `none` for the `EndOfFile` error. -/
def fromReaderBuf : List (List Char) → List Char → Option (List Char × List (List Char))
  | [], buf => if (rustTrim buf).isEmpty then none else some (buf, [])
  | line :: rest, buf =>
    let buf' := buf ++ line
    if utf8Length line == 1 then
      if buf'.getLast? == some '\n' && !(rustTrim buf').isEmpty then some (buf', rest)
      else fromReaderBuf rest buf'
    else fromReaderBuf rest buf'

/-- Helper: `fromReaderBuf` only hands back lines it has not consumed. -/
theorem fromReaderBuf_rest_length_le (lines : List (List Char)) (buf : List Char)
    (out : List Char × List (List Char)) (h : fromReaderBuf lines buf = some out) :
    out.2.length ≤ lines.length := by
  induction lines generalizing buf with
  | nil =>
    simp only [fromReaderBuf] at h
    split at h
    · exact absurd h (by simp)
    · cases h; simp
  | cons line rest ih =>
    simp only [fromReaderBuf] at h
    split at h
    · split at h
      · cases h; simp
      · exact Nat.le_succ_of_le (ih _ h)
    · exact Nat.le_succ_of_le (ih _ h)

/-- Helper: on a non-empty line list, a successful `fromReaderBuf` consumes
at least the first line. -/
theorem fromReaderBuf_cons_rest_lt (l : List Char) (ls : List (List Char))
    (buf : List Char) (out : List Char × List (List Char))
    (h : fromReaderBuf (l :: ls) buf = some out) :
    out.2.length < (l :: ls).length := by
  simp only [fromReaderBuf] at h
  split at h
  · split at h
    · cases h
      simp [Nat.lt_succ_self]
    · have := fromReaderBuf_rest_length_le ls _ _ h
      simpa using Nat.lt_succ_of_le this
  · have := fromReaderBuf_rest_length_le ls _ _ h
    simpa using Nat.lt_succ_of_le this

/-- Embedding of `ControlIterator::next` iterated to exhaustion
(control/de/mod.rs lines 155-168): call `from_reader` on the remaining input
until it reports `EndOfFile`, collecting each buffer handed to `from_str`. -/
def controlIterBufs (lines : List (List Char)) : List (List Char) :=
  match h : fromReaderBuf lines [] with
  | none => []
  | some (buf, rest) => buf :: controlIterBufs rest
termination_by lines.length
decreasing_by
  cases lines with
  | nil =>
    simp [fromReaderBuf] at h
    exact absurd rfl h.1
  | cons l ls => exact fromReaderBuf_cons_rest_lt l ls [] _ h

/-! ## Digest codec (src/control/digest.rs) -/

/-- Embedding of the `DigestParseError` enum (digest.rs lines 59-71). -/
inductive DigestParseError where
  | Empty
  | BadLength
  | InvalidEncoding
deriving DecidableEq, Repr

/-- ASCII hex digit, as accepted by the `hex` crate's decoder. -/
def isAsciiHexDigit (c : Char) : Bool :=
  isAsciiDigit c || (97 ≤ c.toNat && c.toNat ≤ 102) || (65 ≤ c.toNat && c.toNat ≤ 70)

/-- Embedding of `Digest::from_str` without the `hex` feature (digest.rs
lines 84-95): reject the empty string, require the byte length to be exactly
twice the raw hash length, and keep the string as-is. -/
def digestFromStrNoHex (hashLen : Nat) (checksum : List Char) :
    Except DigestParseError (List Char) :=
  if checksum.isEmpty then .error .Empty
  else if utf8Length checksum != hashLen * 2 then .error .BadLength
  else .ok checksum

/-- Embedding of `Digest::from_str` with the `hex` feature (digest.rs lines
109-121): reject the empty string; `hex::decode` fails (mapped to
`InvalidEncoding`) on any non-hex byte or an odd byte count; the decoded
byte vector must then convert into `[u8; HASH_LEN]`, failing with
`BadLength` otherwise. -/
def digestFromStrHex (hashLen : Nat) (checksum : List Char) :
    Except DigestParseError Unit :=
  if checksum.isEmpty then .error .Empty
  else if !(checksum.all isAsciiHexDigit) || checksum.length % 2 != 0 then
    .error .InvalidEncoding
  else if checksum.length / 2 != hashLen then .error .BadLength
  else .ok ()

/-! ## List helper lemmas -/

/-- `dropWhile` distributes over an append whose boundary element fails the
predicate. -/
theorem dropWhile_append_cons (p : Char → Bool) (a : List Char) (c : Char)
    (b : List Char) (h : p c = false) :
    List.dropWhile p (a ++ c :: b) = List.dropWhile p a ++ c :: b := by
  induction a with
  | nil => simp [List.dropWhile_cons, h]
  | cons x xs ih =>
    simp only [List.cons_append, List.dropWhile_cons]
    cases p x <;> simp [ih]

/-- `dropWhile` over an append when the left part does not vanish. -/
theorem dropWhile_append_of_ne_nil (p : Char → Bool) (a b : List Char)
    (h : List.dropWhile p a ≠ []) :
    List.dropWhile p (a ++ b) = List.dropWhile p a ++ b := by
  induction a with
  | nil => simp [List.dropWhile] at h
  | cons x xs ih =>
    simp only [List.cons_append, List.dropWhile_cons] at *
    cases hx : p x
    · simp
    · simp only [hx] at h ⊢
      exact ih h

/-- A list whose head fails the predicate is untouched by `dropWhile`. -/
theorem dropWhile_eq_self_of_head (p : Char → Bool) (l : List Char)
    (h : ∀ c, l.head? = some c → p c = false) :
    List.dropWhile p l = l := by
  cases l with
  | nil => rfl
  | cons x xs => simp [List.dropWhile_cons, h x rfl]

/-- `takeWhile` over an append whose left part fully satisfies the predicate. -/
theorem takeWhile_append_all (p : Char → Bool) (a b : List Char)
    (h : ∀ c ∈ a, p c = true) :
    List.takeWhile p (a ++ b) = a ++ List.takeWhile p b := by
  induction a with
  | nil => simp
  | cons x xs ih =>
    have hx := h x (by simp)
    simp only [List.cons_append, List.takeWhile_cons, hx, if_true]
    simp [ih fun c hc => h c (by simp [hc])]

/-- `dropWhile` over an append whose left part fully satisfies the predicate. -/
theorem dropWhile_append_all (p : Char → Bool) (a b : List Char)
    (h : ∀ c ∈ a, p c = true) :
    List.dropWhile p (a ++ b) = List.dropWhile p b := by
  induction a with
  | nil => simp
  | cons x xs ih =>
    have hx := h x (by simp)
    simp only [List.cons_append, List.dropWhile_cons, hx, if_true]
    exact ih fun c hc => h c (by simp [hc])

/-! ## Character class lemmas -/

/-- Arithmetic description of the version string characters. -/
theorem isVersionString_val (c : Char) (h : isVersionString c = true) :
    (97 ≤ c.toNat ∧ c.toNat ≤ 122) ∨ (65 ≤ c.toNat ∧ c.toNat ≤ 90)
      ∨ c.toNat = 46 ∨ c.toNat = 45 ∨ c.toNat = 43 ∨ c.toNat = 58 ∨ c.toNat = 126 := by
  simp only [isVersionString, isAsciiLower, isAsciiUpper, Bool.or_eq_true,
    Bool.and_eq_true, decide_eq_true_eq, beq_iff_eq, or_assoc] at h
  rcases h with h | h | h | h | h | h | h
  · exact Or.inl h
  · exact Or.inr (Or.inl h)
  all_goals subst h; simp

/-- Arithmetic description of the digit characters. -/
theorem isVersionDigit_val (c : Char) (h : isVersionDigit c = true) :
    48 ≤ c.toNat ∧ c.toNat ≤ 57 := by
  simpa only [isVersionDigit, isAsciiDigit, Bool.and_eq_true, decide_eq_true_eq] using h

/-- Version string characters are not digits. -/
theorem isVersionString_not_digit (c : Char) (h : isVersionString c = true) :
    isVersionDigit c = false := by
  have hv := isVersionString_val c h
  simp only [isVersionDigit, isAsciiDigit, Bool.and_eq_false_iff,
    decide_eq_false_iff_not, not_le]
  omega

/-- Digits are not version string characters. -/
theorem isVersionDigit_not_string (c : Char) (h : isVersionDigit c = true) :
    isVersionString c = false := by
  cases hs : isVersionString c
  · rfl
  · rw [isVersionString_not_digit c hs] at h
    cases h

/-- Characters admissible in an upstream version are version characters. -/
theorem upstreamCharOk_version_char (he hr : Bool) (c : Char)
    (h : upstreamCharOk he hr c = true) :
    isVersionString c = true ∨ isVersionDigit c = true := by
  simp only [upstreamCharOk, Bool.or_eq_true, Bool.and_eq_true, or_assoc] at h
  rcases h with h | h | h | h | h | h | ⟨h, _⟩ | ⟨h, _⟩
  · exact Or.inl (by simp [isVersionString, h])
  · exact Or.inl (by simp [isVersionString, h])
  · exact Or.inr (by simp [isVersionDigit, h])
  all_goals exact Or.inl (by simp [isVersionString, h])

/-- Characters admissible in a revision are version characters. -/
theorem revisionCharOk_version_char (c : Char) (h : revisionCharOk c = true) :
    isVersionString c = true ∨ isVersionDigit c = true := by
  simp only [revisionCharOk, Bool.or_eq_true, or_assoc] at h
  rcases h with h | h | h | h | h | h
  · exact Or.inl (by simp [isVersionString, h])
  · exact Or.inl (by simp [isVersionString, h])
  · exact Or.inr (by simp [isVersionDigit, h])
  all_goals exact Or.inl (by simp [isVersionString, h])

/-- Version characters are not whitespace. -/
theorem version_char_not_whitespace (c : Char)
    (h : isVersionString c = true ∨ isVersionDigit c = true) :
    isRustWhitespace c = false := by
  have hval : c.toNat < 127 ∧ 42 < c.toNat := by
    rcases h with h | h
    · rcases isVersionString_val c h with h | h | h | h | h | h | h <;> omega
    · have := isVersionDigit_val c h
      omega
  simp only [isRustWhitespace, Bool.or_eq_false_iff, Bool.and_eq_false_iff,
    decide_eq_false_iff_not, beq_eq_false_iff_ne, ne_eq, not_le]
  omega

/-! ## Component comparison lemmas -/

/-- `compare` on `Nat` is reflexive. -/
theorem natCompare_self (n : Nat) : compare n n = Ordering.eq := by
  simp [Nat.compare_eq_eq]

/-- The lockstep character walk ignores a common prefix. -/
theorem cmpVersionCharsZip_append (r x y : List Char) :
    cmpVersionCharsZip (r ++ x) (r ++ y) = cmpVersionCharsZip x y := by
  induction r with
  | nil => simp
  | cons c cs ih =>
    have hc : compareVersionChar c c = .eq := by
      simp [compareVersionChar, natCompare_self]
    simp only [List.cons_append, cmpVersionCharsZip, hc]
    exact ih

/-- The lockstep character walk ends with `Equal` when either side is empty. -/
theorem cmpVersionCharsZip_nil (x : List Char) :
    cmpVersionCharsZip x [] = .eq := by
  cases x <;> rfl

/-- A string component compared with itself is `Equal`. -/
theorem compareVersionStrComponent_self (r : List Char) :
    compareVersionStrComponent r r = .eq := by
  have hzip : cmpVersionCharsZip r r = .eq := by
    have := cmpVersionCharsZip_append r [] []
    simpa using this
  simp [compareVersionStrComponent, hzip, natCompare_self]

/-- A string component extended with `~` and anything more compares strictly
below itself: the first extra character position holds `~`. -/
theorem compareVersionStrComponent_tilde (r w : List Char) :
    compareVersionStrComponent (r ++ '~' :: w) r = .lt := by
  have hzip : cmpVersionCharsZip (r ++ '~' :: w) r = .eq := by
    have := cmpVersionCharsZip_append r ('~' :: w) []
    simpa using this
  have hget : (r ++ '~' :: w)[r.length]? = some '~' := by
    rw [List.getElem?_append_right (Nat.le_refl _)]
    simp
  cases r with
  | nil =>
    have hlen : compare (w.length + 1) 0 = .gt := by
      rw [Nat.compare_eq_gt]
      omega
    simp only [List.nil_append] at hzip hget
    simp [compareVersionStrComponent, hzip, hlen, hget]
  | cons c cs =>
    simp only [List.cons_append] at hzip hget
    have hlen : compare (cs.length + (w.length + 1) + 1) (cs.length + 1) = .gt := by
      rw [Nat.compare_eq_gt]
      omega
    have hmin : Nat.min (cs.length + (w.length + 1) + 1) (cs.length + 1)
        = cs.length + 1 := Nat.min_eq_right (by omega)
    have hget2 : (cs ++ '~' :: w)[cs.length]? = some '~' := by
      rw [List.getElem?_append_right (Nat.le_refl _)]
      simp
    simp only [compareVersionStrComponent, hzip, hlen, hmin, hget2]
    have hlt : cs.length < (cs ++ '~' :: w).length := by simp
    rw [List.getElem?_eq_getElem hlt] at hget2
    simp_all

/-- A number component compared with itself is `Equal`. -/
theorem compareVersionNumberComponent_self (d : List Char) :
    compareVersionNumberComponent d d = .eq := by
  have hchar : ∀ c : Char, compare c c = Ordering.eq := by
    intro c
    simp [compare, compareOfLessAndEq]
  have hzip : ∀ l : List Char, cmpCharsZip l l = .eq := by
    intro l
    induction l with
    | nil => rfl
    | cons c cs ih => simp [cmpCharsZip, ih, hchar]
  simp [compareVersionNumberComponent, natCompare_self, hzip]

/-! ## Run decomposition lemmas -/

/-- Characters that may appear in a version component: string characters or
digits. -/
def isVersionChar (c : Char) : Bool := isVersionString c || isVersionDigit c

/-- In string mode a string character is pushed onto the current run. -/
theorem versionRunsGo_str_cons (acc : List Char) (c : Char) (cs : List Char)
    (h : isVersionString c = true) :
    versionRunsGo true acc (c :: cs) = versionRunsGo true (acc ++ [c]) cs := by
  have hd : isVersionDigit c = false := isVersionString_not_digit c h
  simp [versionRunsGo, h, hd]

/-- In string mode a digit ends the run and flips to number mode. -/
theorem versionRunsGo_str_to_num (acc : List Char) (c : Char) (cs : List Char)
    (h : isVersionDigit c = true) :
    versionRunsGo true acc (c :: cs)
      = VersionComponent.str acc :: versionRunsGo false [c] cs := by
  have hs : isVersionString c = false := isVersionDigit_not_string c h
  simp [versionRunsGo, h, hs]

/-- In number mode a digit is pushed onto the current run. -/
theorem versionRunsGo_num_cons (acc : List Char) (c : Char) (cs : List Char)
    (h : isVersionDigit c = true) :
    versionRunsGo false acc (c :: cs) = versionRunsGo false (acc ++ [c]) cs := by
  have hs : isVersionString c = false := isVersionDigit_not_string c h
  simp [versionRunsGo, h, hs]

/-- In number mode a string character ends the run and flips to string mode. -/
theorem versionRunsGo_num_to_str (acc : List Char) (c : Char) (cs : List Char)
    (h : isVersionString c = true) :
    versionRunsGo false acc (c :: cs)
      = VersionComponent.num acc :: versionRunsGo true [c] cs := by
  have hd : isVersionDigit c = false := isVersionString_not_digit c h
  simp [versionRunsGo, h, hd]

/-- The head surviving `dropWhile` fails the predicate. -/
theorem dropWhile_head_not (p : Char → Bool) (l : List Char) (c : Char)
    (cs : List Char) (h : l.dropWhile p = c :: cs) : p c = false := by
  induction l with
  | nil => cases h
  | cons x xs ih =>
    rw [List.dropWhile_cons] at h
    split at h
    · exact ih h
    · cases h
      rename_i hx
      simpa using hx

/-- Normal form of the tokenizer in string mode on valid input: the pending
run extends by the maximal string-character prefix, and the remainder is
tokenized in number mode (with nothing more when the input is exhausted). -/
theorem versionRunsGo_str_split (s : List Char) (acc : List Char)
    (hv : ∀ c ∈ s, isVersionChar c = true) :
    versionRunsGo true acc s
      = VersionComponent.str (acc ++ s.takeWhile isVersionString)
        :: (if s.dropWhile isVersionString = [] then []
            else versionRunsGo false [] (s.dropWhile isVersionString)) := by
  induction s generalizing acc with
  | nil => simp [versionRunsGo]
  | cons c cs ih =>
    have hc := hv c (by simp)
    simp only [isVersionChar, Bool.or_eq_true] at hc
    rcases hc with hc | hc
    · have hd : isVersionDigit c = false := isVersionString_not_digit c hc
      rw [versionRunsGo_str_cons acc c cs hc,
        ih (acc ++ [c]) (fun x hx => hv x (by simp [hx]))]
      simp [List.takeWhile_cons, List.dropWhile_cons, hc]
    · have hs : isVersionString c = false := isVersionDigit_not_string c hc
      rw [versionRunsGo_str_to_num acc c cs hc]
      have h2 : versionRunsGo false [] (c :: cs) = versionRunsGo false [c] cs := by
        rw [versionRunsGo_num_cons [] c cs hc]
        simp
      simp [List.takeWhile_cons, List.dropWhile_cons, hs, h2]

/-- Normal form of the tokenizer in number mode on valid input: the pending
run extends by the maximal digit prefix, and the remainder is tokenized in
string mode. -/
theorem versionRunsGo_num_split (s : List Char) (acc : List Char)
    (hv : ∀ c ∈ s, isVersionChar c = true) :
    versionRunsGo false acc s
      = VersionComponent.num (acc ++ s.takeWhile isVersionDigit)
        :: versionRunsGo true [] (s.dropWhile isVersionDigit) := by
  induction s generalizing acc with
  | nil => simp [versionRunsGo]
  | cons c cs ih =>
    have hc := hv c (by simp)
    simp only [isVersionChar, Bool.or_eq_true] at hc
    rcases hc with hc | hc
    · have hd : isVersionDigit c = false := isVersionString_not_digit c hc
      rw [versionRunsGo_num_to_str acc c cs hc]
      have h2 : versionRunsGo true [] (c :: cs) = versionRunsGo true [c] cs := by
        rw [versionRunsGo_str_cons [] c cs hc]
        simp
      simp [List.takeWhile_cons, List.dropWhile_cons, hd, h2]
    · rw [versionRunsGo_num_cons acc c cs hc,
        ih (acc ++ [c]) (fun x hx => hv x (by simp [hx]))]
      simp [List.takeWhile_cons, List.dropWhile_cons, hc]

/-! ## Lockstep run comparison lemmas -/

/-- First string pair not equal: the walk stops there. -/
theorem cmpRuns_str_ne (l r : List Char) (ls rs : List VersionComponent)
    (v : Ordering) (h : compareVersionStrComponent l r = v) (hne : v ≠ .eq) :
    cmpRuns (.str l :: ls) (.str r :: rs) = v := by
  cases v <;> simp [cmpRuns, h] <;> simp at hne

/-- First string pair equal: the walk continues. -/
theorem cmpRuns_str_eq (l r : List Char) (ls rs : List VersionComponent)
    (h : compareVersionStrComponent l r = .eq) :
    cmpRuns (.str l :: ls) (.str r :: rs) = cmpRuns ls rs := by
  simp [cmpRuns, h]

/-- First number pair equal: the walk continues. -/
theorem cmpRuns_num_eq (l r : List Char) (ls rs : List VersionComponent)
    (h : compareVersionNumberComponent l r = .eq) :
    cmpRuns (.num l :: ls) (.num r :: rs) = cmpRuns ls rs := by
  simp [cmpRuns, h]

/-- Any component list compares equal with itself. -/
theorem cmpRuns_self (L : List VersionComponent) : cmpRuns L L = .eq := by
  induction L with
  | nil => rfl
  | cons x xs ih =>
    cases x with
    | str l => rw [cmpRuns_str_eq l l xs xs (compareVersionStrComponent_self l)]; exact ih
    | num l => rw [cmpRuns_num_eq l l xs xs (compareVersionNumberComponent_self l)]; exact ih

/-- The Debian sequence order is reflexive. -/
theorem compareVersionStr_self (s : List Char) : compareVersionStr s s = .eq :=
  cmpRuns_self (versionRuns s)

/-- Helper: `dropWhile` never lengthens a list. -/
theorem dropWhile_length_le (p : Char → Bool) (l : List Char) :
    (l.dropWhile p).length ≤ l.length := by
  induction l with
  | nil => simp
  | cons c cs ih =>
    rw [List.dropWhile_cons]
    split
    · exact Nat.le_succ_of_le ih
    · simp

/-! ## The tilde comparison law at the level of the sequence order -/

/-- Core lemma, proved by induction on an explicit bound: appending `~`
followed by any valid characters to a valid string makes it strictly smaller
in the Debian sequence order, in both tokenizer modes.  The number-mode
statement requires the input to start with a digit, which is how number mode
is always entered. -/
theorem tilde_cmpRuns_lt_aux (t : List Char)
    (ht : ∀ c ∈ t, isVersionChar c = true) :
    ∀ n : Nat,
      (∀ s : List Char, s.length ≤ n → (∀ c ∈ s, isVersionChar c = true) →
        ∀ c cs, s = c :: cs → isVersionDigit c = true →
          cmpRuns (versionRunsGo false [] (s ++ '~' :: t))
            (versionRunsGo false [] s) = .lt)
      ∧ (∀ s : List Char, s.length ≤ n → (∀ c ∈ s, isVersionChar c = true) →
        cmpRuns (versionRunsGo true [] (s ++ '~' :: t))
          (versionRunsGo true [] s) = .lt) := by
  have htilde : isVersionChar '~' = true := by decide
  have htilde_str : isVersionString '~' = true := by decide
  have htilde_dig : isVersionDigit '~' = false := by decide
  -- validity of the extended string
  have hext : ∀ s : List Char, (∀ c ∈ s, isVersionChar c = true) →
      ∀ c ∈ s ++ '~' :: t, isVersionChar c = true := by
    intro s hv c hc
    rcases List.mem_append.mp hc with h | h
    · exact hv c h
    · rcases List.mem_cons.mp h with h | h
      · subst h; exact htilde
      · exact ht c h
  -- the string-mode step, parameterized by the number-mode result
  have htrue_step : ∀ (m : Nat),
      (∀ s : List Char, s.length ≤ m → (∀ c ∈ s, isVersionChar c = true) →
        ∀ c cs, s = c :: cs → isVersionDigit c = true →
          cmpRuns (versionRunsGo false [] (s ++ '~' :: t))
            (versionRunsGo false [] s) = .lt) →
      ∀ s : List Char, s.length ≤ m → (∀ c ∈ s, isVersionChar c = true) →
        cmpRuns (versionRunsGo true [] (s ++ '~' :: t))
          (versionRunsGo true [] s) = .lt := by
    intro m hfalse s hlen hv
    rw [versionRunsGo_str_split (s ++ '~' :: t) [] (hext s hv),
      versionRunsGo_str_split s [] hv]
    by_cases hrest : s.dropWhile isVersionString = []
    · -- the whole of `s` is one string run; the extended side's first run
      -- continues with `~`
      have hall : ∀ c ∈ s, isVersionString c = true := by
        intro c hc
        have : s.takeWhile isVersionString = s := by
          have := List.takeWhile_append_dropWhile (p := isVersionString) (l := s)
          rw [hrest, List.append_nil] at this
          exact this
        rw [← this] at hc
        exact List.mem_takeWhile_imp hc
      have htake : (s ++ '~' :: t).takeWhile isVersionString
          = s ++ '~' :: t.takeWhile isVersionString := by
        rw [takeWhile_append_all _ s _ hall]
        simp [List.takeWhile_cons, htilde_str]
      have htakes : s.takeWhile isVersionString = s := by
        have := List.takeWhile_append_dropWhile (p := isVersionString) (l := s)
        rw [hrest, List.append_nil] at this
        exact this
      rw [htake, htakes, hrest]
      exact cmpRuns_str_ne _ _ _ _ .lt
        (by simpa using compareVersionStrComponent_tilde s (t.takeWhile isVersionString))
        (by simp)
    · -- the first string run is shared; recurse into number mode
      have htake : (s ++ '~' :: t).takeWhile isVersionString
          = s.takeWhile isVersionString := by
        conv_lhs => rw [← List.takeWhile_append_dropWhile (p := isVersionString) (l := s),
          List.append_assoc]
        rw [takeWhile_append_all _ _ _ (fun c hc => List.mem_takeWhile_imp hc)]
        cases hdw : s.dropWhile isVersionString with
        | nil => exact absurd hdw hrest
        | cons c0 cs0 =>
          have hc0 : isVersionString c0 = false := dropWhile_head_not _ s c0 cs0 hdw
          simp [List.takeWhile_cons, hc0]
      have hdrop : (s ++ '~' :: t).dropWhile isVersionString
          = s.dropWhile isVersionString ++ '~' :: t :=
        dropWhile_append_of_ne_nil _ s ('~' :: t) hrest
      rw [htake, hdrop]
      have hne2 : s.dropWhile isVersionString ++ '~' :: t ≠ [] := by
        simp
      rw [if_neg hne2, if_neg hrest]
      rw [cmpRuns_str_eq _ _ _ _ (compareVersionStrComponent_self _)]
      cases hdw : s.dropWhile isVersionString with
      | nil => exact absurd hdw hrest
      | cons c0 cs0 =>
        have hc0s : isVersionString c0 = false := dropWhile_head_not _ s c0 cs0 hdw
        have hc0 : isVersionDigit c0 = true := by
          have hmem : c0 ∈ s := by
            have hsub : c0 ∈ s.dropWhile isVersionString := by
              rw [hdw]; simp
            have := List.dropWhile_sublist (p := isVersionString) (l := s)
            exact this.mem hsub
          have := hv c0 hmem
          simp only [isVersionChar, Bool.or_eq_true, hc0s] at this
          simpa using this
        have hvrest : ∀ c ∈ s.dropWhile isVersionString, isVersionChar c = true := by
          intro c hc
          have := List.dropWhile_sublist (p := isVersionString) (l := s)
          exact hv c (this.mem hc)
        have hlrest : (s.dropWhile isVersionString).length ≤ m :=
          Nat.le_trans (dropWhile_length_le _ s) hlen
        rw [← hdw]
        exact hfalse _ hlrest hvrest c0 cs0 hdw hc0
  intro n
  induction n with
  | zero =>
    constructor
    · intro s hlen _ c cs hs _
      subst hs
      simp at hlen
    · intro s hlen hv
      have hs : s = [] := List.length_eq_zero.mp (Nat.le_zero.mp hlen)
      subst hs
      exact htrue_step 0 (by intro s hl _ c cs hs _; subst hs; simp at hl) [] (by simp) hv
  | succ n ih =>
    have hfalse : ∀ s : List Char, s.length ≤ n + 1 →
        (∀ c ∈ s, isVersionChar c = true) →
        ∀ c cs, s = c :: cs → isVersionDigit c = true →
          cmpRuns (versionRunsGo false [] (s ++ '~' :: t))
            (versionRunsGo false [] s) = .lt := by
      intro s hlen hv c cs hs hdig
      rw [versionRunsGo_num_split (s ++ '~' :: t) [] (hext s hv),
        versionRunsGo_num_split s [] hv]
      have hdall : ∀ x ∈ s.takeWhile isVersionDigit, isVersionDigit x = true :=
        fun x hx => List.mem_takeWhile_imp hx
      have htake : (s ++ '~' :: t).takeWhile isVersionDigit
          = s.takeWhile isVersionDigit := by
        conv_lhs => rw [← List.takeWhile_append_dropWhile (p := isVersionDigit) (l := s),
          List.append_assoc]
        rw [takeWhile_append_all _ _ _ hdall]
        cases hdw : s.dropWhile isVersionDigit with
        | nil => simp [List.takeWhile_cons, htilde_dig]
        | cons c0 cs0 =>
          have hc0 : isVersionDigit c0 = false := dropWhile_head_not _ s c0 cs0 hdw
          simp [List.takeWhile_cons, hc0]
      have hdrop : (s ++ '~' :: t).dropWhile isVersionDigit
          = s.dropWhile isVersionDigit ++ '~' :: t := by
        conv_lhs => rw [← List.takeWhile_append_dropWhile (p := isVersionDigit) (l := s),
          List.append_assoc]
        rw [dropWhile_append_all _ _ _ hdall]
        rw [dropWhile_eq_self_of_head]
        intro x hx
        cases hdw : s.dropWhile isVersionDigit with
        | nil =>
          rw [hdw] at hx
          simp at hx
          rw [← hx]
          exact htilde_dig
        | cons c0 cs0 =>
          rw [hdw] at hx
          simp at hx
          rw [← hx]
          exact dropWhile_head_not _ s c0 cs0 hdw
      rw [htake, hdrop]
      rw [cmpRuns_num_eq _ _ _ _ (compareVersionNumberComponent_self _)]
      -- recurse into string mode on a strictly shorter list
      have hdne : s.takeWhile isVersionDigit ≠ [] := by
        subst hs
        simp [List.takeWhile_cons, hdig]
      have hlen' : (s.dropWhile isVersionDigit).length ≤ n := by
        have hsplit := List.takeWhile_append_dropWhile (p := isVersionDigit) (l := s)
        have : (s.takeWhile isVersionDigit).length
            + (s.dropWhile isVersionDigit).length = s.length := by
          rw [← List.length_append, hsplit]
        have hpos : 1 ≤ (s.takeWhile isVersionDigit).length :=
          Nat.one_le_iff_ne_zero.mpr (by simpa using hdne)
        omega
      have hvrest : ∀ c ∈ s.dropWhile isVersionDigit, isVersionChar c = true := by
        intro x hx
        have := List.dropWhile_sublist (p := isVersionDigit) (l := s)
        exact hv x (this.mem hx)
      exact (ih.2) _ hlen' hvrest
    exact ⟨hfalse, htrue_step (n + 1) hfalse⟩

/-- The tilde law for the Debian sequence order: for valid inputs,
`compare_version_str (s ++ "~" ++ t) s` is `Less`. -/
theorem compareVersionStr_tilde_lt (s t : List Char)
    (hs : ∀ c ∈ s, isVersionChar c = true)
    (ht : ∀ c ∈ t, isVersionChar c = true) :
    compareVersionStr (s ++ '~' :: t) s = .lt :=
  ((tilde_cmpRuns_lt_aux t ht s.length).2) s (Nat.le_refl _) hs

/-! ## Split function characterizations -/

/-- Unfolding of `splitFirst` at a separator head. -/
theorem splitFirst_cons_eq (sep c : Char) (cs : List Char) (h : (c == sep) = true) :
    splitFirst sep (c :: cs) = some ([], cs) := by
  simp [splitFirst, h]

/-- Unfolding of `splitFirst` at a non-separator head. -/
theorem splitFirst_cons_ne (sep c : Char) (cs : List Char) (h : (c == sep) = false) :
    splitFirst sep (c :: cs)
      = match splitFirst sep cs with
        | none => none
        | some (a, b) => some (c :: a, b) := by
  rw [splitFirst, h]
  simp

/-- `splitFirst` finds nothing iff the separator is absent. -/
theorem splitFirst_eq_none (sep : Char) (l : List Char) :
    splitFirst sep l = none ↔ sep ∉ l := by
  induction l with
  | nil => simp [splitFirst]
  | cons c cs ih =>
    by_cases hc : c = sep
    · rw [splitFirst_cons_eq sep c cs (by simp [hc])]
      simp [List.mem_cons, hc]
    · rw [splitFirst_cons_ne sep c cs (by simpa using hc)]
      cases hrec : splitFirst sep cs with
      | none =>
        rw [hrec] at ih
        simp [List.mem_cons, Ne.symm hc, ih.mp rfl]
      | some p =>
        rw [hrec] at ih
        cases p with
        | mk a b =>
          have hmem : sep ∈ cs := by
            by_contra hmem
            exact absurd (ih.mpr hmem) (by simp)
          simp [List.mem_cons, hmem]

/-- A successful `splitFirst` decomposes the list at the first separator. -/
theorem splitFirst_eq_some (sep : Char) (l a b : List Char)
    (h : splitFirst sep l = some (a, b)) : l = a ++ sep :: b ∧ sep ∉ a := by
  induction l generalizing a b with
  | nil => cases h
  | cons c cs ih =>
    by_cases hc : c = sep
    · subst hc
      rw [splitFirst_cons_eq c c cs (by simp)] at h
      simp only [Option.some_inj, Prod.mk.injEq] at h
      obtain ⟨ha, hb⟩ := h
      subst ha
      subst hb
      simp
    · rw [splitFirst_cons_ne sep c cs (by simpa using hc)] at h
      cases hrec : splitFirst sep cs with
      | none => rw [hrec] at h; cases h
      | some p =>
        rw [hrec] at h
        cases p with
        | mk a' b' =>
          simp only [Option.some_inj, Prod.mk.injEq] at h
          obtain ⟨ha, hb⟩ := h
          obtain ⟨hdec, hmem⟩ := ih a' b' hrec
          subst hdec
          rw [← ha, ← hb]
          refine ⟨by simp, ?_⟩
          simp only [List.mem_cons]
          rintro (heq | hm)
          · exact hc heq.symm
          · exact hmem hm

/-- `splitFirst` on a list with an explicit first separator. -/
theorem splitFirst_append (sep : Char) (a b : List Char) (h : sep ∉ a) :
    splitFirst sep (a ++ sep :: b) = some (a, b) := by
  induction a with
  | nil =>
    rw [List.nil_append, splitFirst_cons_eq sep sep b (by simp)]
  | cons c cs ih =>
    have hc : (c == sep) = false := by
      simp only [List.mem_cons] at h
      simpa using fun hcc => h (Or.inl hcc.symm)
    rw [List.cons_append, splitFirst_cons_ne sep c (cs ++ sep :: b) hc,
      ih (fun hm => h (List.mem_cons.mpr (Or.inr hm)))]

/-- The first component of a successful `splitFirst` extends any
separator-free prefix of the input. -/
theorem splitFirst_extends (sep : Char) (a x E rest : List Char)
    (h : splitFirst sep (a ++ x) = some (E, rest)) (ha : sep ∉ a) :
    ∃ x₁, E = a ++ x₁ := by
  induction a generalizing E rest with
  | nil => exact ⟨E, by simp⟩
  | cons c cs ih =>
    have hc : (c == sep) = false := by
      simp only [List.mem_cons] at ha
      simpa using fun hcc => ha (Or.inl hcc.symm)
    rw [List.cons_append, splitFirst_cons_ne sep c (cs ++ x) hc] at h
    cases hrec : splitFirst sep (cs ++ x) with
    | none => rw [hrec] at h; cases h
    | some p =>
      rw [hrec] at h
      cases p with
      | mk a' b' =>
        simp only [Option.some_inj, Prod.mk.injEq] at h
        obtain ⟨ha', _⟩ := h
        obtain ⟨x₁, hx₁⟩ := ih a' b' hrec (fun hm => ha (List.mem_cons.mpr (Or.inr hm)))
        exact ⟨x₁, by rw [← ha', hx₁]; simp⟩

/-- `splitLast` finds nothing iff the separator is absent. -/
theorem splitLast_eq_none (sep : Char) (l : List Char) :
    splitLast sep l = none ↔ sep ∉ l := by
  simp only [splitLast]
  cases h : splitFirst sep l.reverse with
  | none =>
    have := (splitFirst_eq_none sep l.reverse).mp h
    simp only [List.mem_reverse] at this
    simp [this]
  | some p =>
    have : sep ∈ l.reverse := by
      obtain ⟨hdec, _⟩ := splitFirst_eq_some sep l.reverse p.1 p.2 (by simpa using h)
      rw [hdec]
      simp
    simp only [List.mem_reverse] at this
    simp [this]

/-- A successful `splitLast` decomposes the list at the last separator. -/
theorem splitLast_eq_some (sep : Char) (l a b : List Char)
    (h : splitLast sep l = some (a, b)) : l = a ++ sep :: b ∧ sep ∉ b := by
  simp only [splitLast] at h
  cases hf : splitFirst sep l.reverse with
  | none => rw [hf] at h; cases h
  | some p =>
    rw [hf] at h
    cases p with
    | mk x y =>
      simp only [Option.some_inj, Prod.mk.injEq] at h
      obtain ⟨ha, hb⟩ := h
      obtain ⟨hdec, hmem⟩ := splitFirst_eq_some sep l.reverse x y hf
      constructor
      · have := congrArg List.reverse hdec
        simp only [List.reverse_reverse] at this
        rw [this, List.reverse_append, List.reverse_cons]
        rw [← ha, ← hb]
        simp
      · rw [← hb]
        simpa using hmem

/-- `splitLast` on a list with an explicit last separator. -/
theorem splitLast_append (sep : Char) (a b : List Char) (h : sep ∉ b) :
    splitLast sep (a ++ sep :: b) = some (a, b) := by
  simp only [splitLast]
  have hrev : (a ++ sep :: b).reverse = b.reverse ++ sep :: a.reverse := by
    simp
  rw [hrev, splitFirst_append sep b.reverse a.reverse (by simpa using h)]
  simp

/-! ## Parse structure lemmas -/

/-- Reading off the facts established by a successful `Version::check`. -/
theorem check_ok_destruct (p : Version) (h : p.check = .ok ()) :
    (∀ c cs, p.upstream_version = c :: cs → isAsciiDigit c = true)
    ∧ (∀ c ∈ p.upstream_version,
        upstreamCharOk p.epoch.isSome p.debian_revision.isSome c = true)
    ∧ (∀ rev, p.debian_revision = some rev → ∀ c ∈ rev, revisionCharOk c = true) := by
  simp only [Version.check] at h
  split at h
  · cases h
  · rename_i hfirst
    split at h
    · cases h
    · rename_i hall
      refine ⟨?_, ?_, ?_⟩
      · intro c cs hup
        rw [Bool.not_eq_true'] at hfirst
        rw [Bool.not_eq_false] at hfirst
        rw [hup] at hfirst
        exact hfirst
      · rw [Bool.not_eq_true'] at hall
        rw [Bool.not_eq_false] at hall
        exact fun c hc => (List.all_eq_true.mp hall) c hc
      · intro rev hrev c hc
        rw [hrev] at h
        cases hb : rev.all revisionCharOk with
        | true => exact (List.all_eq_true.mp hb) c hc
        | false => simp [hb] at h

/-- Reading off the structure established by a successful `Version::from_str`:
the trimmed input decomposes at the first colon and last dash exactly into
the fields of the parsed value, and the parsed value passes `check`. -/
theorem fromStr_ok_destruct (x : List Char) (p : Version)
    (h : Version.fromStr x = .ok p) :
    p.check = .ok ()
    ∧ ∃ rest : List Char,
      ((splitFirst ':' (rustTrim x) = none ∧ p.epoch = none ∧ rest = rustTrim x)
        ∨ (∃ E e, splitFirst ':' (rustTrim x) = some (E, rest)
            ∧ parseU64 E = some e ∧ e ≤ i32Max ∧ p.epoch = some e))
      ∧ rest ≠ []
      ∧ ((splitLast '-' rest = none ∧ p.upstream_version = rest ∧ p.debian_revision = none)
        ∨ (∃ U R, splitLast '-' rest = some (U, R) ∧ R ≠ [] ∧ U ≠ []
            ∧ p.upstream_version = U ∧ p.debian_revision = some R)) := by
  simp only [Version.fromStr] at h
  split at h
  · cases h
  · rename_i epoch rest1 hstep
    -- hstep describes the result of the epoch stage
    have hepoch :
        (splitFirst ':' (rustTrim x) = none ∧ epoch = none ∧ rest1 = rustTrim x)
        ∨ (∃ E e, splitFirst ':' (rustTrim x) = some (E, rest1)
            ∧ parseU64 E = some e ∧ e ≤ i32Max ∧ epoch = some e) := by
      split at hstep
      · rename_i hsf
        simp only [Except.ok.injEq, Prod.mk.injEq] at hstep
        exact Or.inl ⟨hsf, hstep.1.symm, hstep.2.symm⟩
      · rename_i E rest' hsf
        split at hstep
        · cases hstep
        · rename_i e hpu
          split at hstep
          · cases hstep
          · rename_i hbound
            simp only [Except.ok.injEq, Prod.mk.injEq] at hstep
            refine Or.inr ⟨E, e, ?_, hpu, by omega, hstep.1.symm⟩
            rw [hsf, hstep.2]
    split at h
    · cases h
    · rename_i hne
      split at h
      · cases h
      · rename_i upstream revision hrstep
        have hrev :
            (splitLast '-' rest1 = none ∧ upstream = rest1 ∧ revision = none)
            ∨ (∃ U R, splitLast '-' rest1 = some (U, R) ∧ R ≠ [] ∧ U ≠ []
                ∧ upstream = U ∧ revision = some R) := by
          split at hrstep
          · rename_i hsl
            simp only [Except.ok.injEq, Prod.mk.injEq] at hrstep
            exact Or.inl ⟨hsl, hrstep.1.symm, hrstep.2.symm⟩
          · rename_i U R hsl
            split at hrstep
            · cases hrstep
            · rename_i hrne
              split at hrstep
              · cases hrstep
              · rename_i hune
                simp only [Except.ok.injEq, Prod.mk.injEq] at hrstep
                refine Or.inr ⟨U, R, hsl, by simpa using hrne, by simpa using hune,
                  hrstep.1.symm, hrstep.2.symm⟩
        split at h
        · cases h
        · split at h
          · cases h
          · rename_i val hchk
            simp only [Except.ok.injEq] at h
            subst h
            refine ⟨?_, rest1, hepoch, by simpa using hne, ?_⟩
            · cases val
              exact hchk
            · simpa using hrev

/-- Characters accepted by a successful `u64` parse: an optional leading sign
and digits. -/
theorem parseU64_some_chars (E : List Char) (e : Nat) (h : parseU64 E = some e) :
    ∀ c ∈ E, c = '+' ∨ isAsciiDigit c = true := by
  simp only [parseU64] at h
  generalize hds : (match E with | '+' :: rest => rest | _ => E) = ds at h
  cases h1 : ds.isEmpty with
  | true => simp [h1] at h
  | false =>
    simp only [h1, Bool.false_eq_true, if_false] at h
    cases h2 : ds.all isAsciiDigit with
    | false => simp [h2] at h
    | true =>
      have hall := List.all_eq_true.mp h2
      split at hds
      · rename_i rest
        intro c hc
        rcases List.mem_cons.mp hc with hc | hc
        · exact Or.inl hc
        · exact Or.inr (hall c (by rw [← hds]; exact hc))
      · intro c hc
        exact Or.inr (hall c (by rw [← hds]; exact hc))

/-- `dropWhile` is the identity when no element satisfies the predicate. -/
theorem dropWhile_all_false (p : Char → Bool) (l : List Char)
    (h : ∀ c ∈ l, p c = false) : l.dropWhile p = l := by
  cases l with
  | nil => rfl
  | cons c cs => simp [List.dropWhile_cons, h c (by simp)]

/-- Every character of the trimmed input of a successful parse is
non-whitespace (it is an epoch digit or sign, a separator, or a checked
upstream or revision character). -/
theorem fromStr_ok_trim_nowhite (x : List Char) (p : Version)
    (h : Version.fromStr x = .ok p) :
    ∀ c ∈ rustTrim x, isRustWhitespace c = false := by
  obtain ⟨hchk, rest, hep, hrne, hrv⟩ := fromStr_ok_destruct x p h
  obtain ⟨hfirst, hup, hrev⟩ := check_ok_destruct p hchk
  have hrest : ∀ c ∈ rest, isRustWhitespace c = false := by
    rcases hrv with ⟨hsl, hupv, hrevv⟩ | ⟨U, R, hsl, _, _, hupv, hrevv⟩
    · intro c hc
      apply version_char_not_whitespace
      apply upstreamCharOk_version_char p.epoch.isSome p.debian_revision.isSome
      exact hup c (by rw [hupv]; exact hc)
    · obtain ⟨hdec, _⟩ := splitLast_eq_some '-' rest U R hsl
      intro c hc
      rw [hdec] at hc
      rcases List.mem_append.mp hc with hc | hc
      · apply version_char_not_whitespace
        apply upstreamCharOk_version_char p.epoch.isSome p.debian_revision.isSome
        exact hup c (by rw [hupv]; exact hc)
      · rcases List.mem_cons.mp hc with hc | hc
        · subst hc; decide
        · apply version_char_not_whitespace
          apply revisionCharOk_version_char
          exact hrev R (by rw [hrevv]) c hc
  rcases hep with ⟨hsf, _, hreq⟩ | ⟨E, e, hsf, hpu, _, _⟩
  · rw [← hreq]
    exact hrest
  · obtain ⟨hdec, _⟩ := splitFirst_eq_some ':' (rustTrim x) E rest hsf
    rw [hdec]
    intro c hc
    rcases List.mem_append.mp hc with hc | hc
    · rcases parseU64_some_chars E e hpu c hc with hc' | hc'
      · subst hc'; decide
      · exact version_char_not_whitespace c (Or.inr (by simpa [isVersionDigit] using hc'))
    · rcases List.mem_cons.mp hc with hc | hc
      · subst hc; decide
      · exact hrest c hc

/-- The trimmed input of a successful parse is non-empty. -/
theorem fromStr_ok_trim_ne_nil (x : List Char) (p : Version)
    (h : Version.fromStr x = .ok p) : rustTrim x ≠ [] := by
  obtain ⟨_, rest, hep, hrne, _⟩ := fromStr_ok_destruct x p h
  rcases hep with ⟨_, _, hreq⟩ | ⟨E, e, hsf, _, _, _⟩
  · rw [← hreq]; exact hrne
  · obtain ⟨hdec, _⟩ := splitFirst_eq_some ':' (rustTrim x) E rest hsf
    rw [hdec]
    simp

/-- Appending `~` and valid version characters extends the trimmed string,
provided both the original and the extended strings parse. -/
theorem rustTrim_append_tilde (v t : List Char) (pv ps : Version)
    (hv : Version.fromStr v = .ok pv)
    (hs : Version.fromStr (v ++ '~' :: t) = .ok ps)
    (ht : ∀ c ∈ t, isVersionChar c = true) :
    rustTrim (v ++ '~' :: t) = rustTrim v ++ '~' :: t := by
  have hAne : v.dropWhile isRustWhitespace ≠ [] := by
    intro hA
    apply fromStr_ok_trim_ne_nil v pv hv
    simp [rustTrim, hA]
  have hstep1 : (v ++ '~' :: t).dropWhile isRustWhitespace
      = v.dropWhile isRustWhitespace ++ '~' :: t :=
    dropWhile_append_of_ne_nil _ v ('~' :: t) hAne
  have hstep2 : rustTrim (v ++ '~' :: t)
      = v.dropWhile isRustWhitespace ++ '~' :: t := by
    rw [rustTrim, hstep1]
    have hrev : (v.dropWhile isRustWhitespace ++ '~' :: t).reverse
        = t.reverse ++ '~' :: (v.dropWhile isRustWhitespace).reverse := by
      simp
    rw [hrev, dropWhile_eq_self_of_head, ← hrev, List.reverse_reverse]
    intro c hc
    cases hrt : t.reverse with
    | nil =>
      rw [hrt] at hc
      simp only [List.nil_append, List.head?_cons, Option.some_inj] at hc
      subst hc
      decide
    | cons c0 cs0 =>
      rw [hrt] at hc
      simp only [List.cons_append, List.head?_cons, Option.some_inj] at hc
      subst hc
      have hc0 : c0 ∈ t := by
        rw [← List.mem_reverse, hrt]
        simp
      apply version_char_not_whitespace
      have := ht c0 hc0
      simpa [isVersionChar, Bool.or_eq_true] using this
  have hA : rustTrim v = v.dropWhile isRustWhitespace := by
    have hnw : ∀ c ∈ v.dropWhile isRustWhitespace, isRustWhitespace c = false := by
      intro c hc
      apply fromStr_ok_trim_nowhite (v ++ '~' :: t) ps hs
      rw [hstep2]
      exact List.mem_append.mpr (Or.inl hc)
    rw [rustTrim, dropWhile_all_false]
    · exact List.reverse_reverse _
    · intro c hc
      exact hnw c (by rwa [List.mem_reverse] at hc)
  rw [hstep2, hA]

/-- Bridge: a character that is a string character or a digit is a version
character. -/
theorem isVersionChar_eq (c : Char)
    (h : isVersionString c = true ∨ isVersionDigit c = true) :
    isVersionChar c = true := by
  rcases h with h | h <;> simp [isVersionChar, h]

/-- Core of the tilde law at the `Version` level: if `v` and `v ++ "~" ++ t`
both parse, with `t` made of version characters other than `-`, then the
extended version compares strictly below the original. -/
theorem tilde_append_cmp_lt (v t : List Char) (pv ps : Version)
    (ht1 : ∀ c ∈ t, isVersionChar c = true) (ht2 : '-' ∉ t)
    (hv : Version.fromStr v = .ok pv)
    (hs : Version.fromStr (v ++ '~' :: t) = .ok ps) :
    ps.cmp pv = .lt := by
  obtain ⟨hchkv, restv, hev, hrnev, hrv⟩ := fromStr_ok_destruct v pv hv
  obtain ⟨hchks, rests, hes, hrnes, hrs⟩ := fromStr_ok_destruct _ ps hs
  obtain ⟨hfirstv, hupv_ok, hrevv_ok⟩ := check_ok_destruct pv hchkv
  have htr := rustTrim_append_tilde v t pv ps hv hs ht1
  have key : ps.epoch = pv.epoch ∧ rests = restv ++ '~' :: t := by
    rcases hev with ⟨hsfv, hepv, hrestv⟩ | ⟨E, e, hsfv, hpuv, hbv, hepv⟩
    · have hnc : ':' ∉ rustTrim v := (splitFirst_eq_none ':' (rustTrim v)).mp hsfv
      rcases hes with ⟨hsfs, heps, hrests⟩ | ⟨E, e, hsfs, hpus, hbs, heps⟩
      · refine ⟨by rw [heps, hepv], ?_⟩
        rw [hrests, htr, hrestv]
      · exfalso
        rw [htr] at hsfs
        obtain ⟨x₁, hx₁⟩ := splitFirst_extends ':' (rustTrim v) ('~' :: t) E rests hsfs hnc
        obtain ⟨hdec, _⟩ := splitFirst_eq_some ':' _ E rests hsfs
        rw [hx₁, List.append_assoc] at hdec
        have hx : '~' :: t = x₁ ++ ':' :: rests := by
          have := hdec
          exact List.append_cancel_left this
        have hmem : '~' ∈ E := by
          cases x₁ with
          | nil => simp at hx
          | cons y ys =>
            simp only [List.cons_append, List.cons.injEq] at hx
            rw [hx₁, ← hx.1]
            simp
        rcases parseU64_some_chars E e hpus '~' hmem with h' | h'
        · cases h'
        · cases h'
    · obtain ⟨hdecv, hnE⟩ := splitFirst_eq_some ':' (rustTrim v) E restv hsfv
      have hsfs_val : splitFirst ':' (rustTrim (v ++ '~' :: t))
          = some (E, restv ++ '~' :: t) := by
        rw [htr, hdecv, List.append_assoc, List.cons_append]
        exact splitFirst_append ':' E _ hnE
      rcases hes with ⟨hsfs, _, _⟩ | ⟨E', e', hsfs, hpus, _, heps⟩
      · rw [hsfs_val] at hsfs
        cases hsfs
      · rw [hsfs_val] at hsfs
        simp only [Option.some_inj, Prod.mk.injEq] at hsfs
        obtain ⟨hEeq, hreq⟩ := hsfs
        subst hEeq
        rw [hpuv] at hpus
        simp only [Option.some_inj] at hpus
        refine ⟨?_, hreq.symm⟩
        rw [heps, hepv, hpus]
  obtain ⟨hepoch_eq, hrel⟩ := key
  have hupvalid : ∀ c ∈ pv.upstream_version, isVersionChar c = true := fun c hc =>
    isVersionChar_eq c (upstreamCharOk_version_char _ _ c (hupv_ok c hc))
  rcases hrv with ⟨hslv, hupv, hrevv⟩ | ⟨U, R, hslv, hRne, hUne, hupv, hrevv⟩
  · -- `v` has no revision: the upstream is extended by the tilde
    have hnd : '-' ∉ restv := (splitLast_eq_none '-' restv).mp hslv
    have hnds : '-' ∉ rests := by
      rw [hrel]
      intro hm
      rcases List.mem_append.mp hm with hm | hm
      · exact hnd hm
      · rcases List.mem_cons.mp hm with hm | hm
        · cases hm
        · exact ht2 hm
    have hsls : splitLast '-' rests = none := (splitLast_eq_none _ _).mpr hnds
    rcases hrs with ⟨hsls', hups, hrevs⟩ | ⟨U', R', hsls', _, _, _, _⟩
    · have hupext : ps.upstream_version = pv.upstream_version ++ '~' :: t := by
        rw [hups, hrel, ← hupv]
      have hcmp : compareVersionStr ps.upstream_version pv.upstream_version = .lt := by
        rw [hupext]
        exact compareVersionStr_tilde_lt _ t hupvalid ht1
      simp [Version.cmp, hepoch_eq, natCompare_self, hcmp]
    · rw [hsls] at hsls'
      cases hsls'
  · -- `v` has a revision: the revision is extended by the tilde
    obtain ⟨hdecr, hnR⟩ := splitLast_eq_some '-' restv U R hslv
    have hnR' : '-' ∉ R ++ '~' :: t := by
      intro hm
      rcases List.mem_append.mp hm with hm | hm
      · exact hnR hm
      · rcases List.mem_cons.mp hm with hm | hm
        · cases hm
        · exact ht2 hm
    have hsls : splitLast '-' rests = some (U, R ++ '~' :: t) := by
      rw [hrel, hdecr, List.append_assoc, List.cons_append]
      exact splitLast_append '-' U _ hnR'
    rcases hrs with ⟨hsls', _, _⟩ | ⟨U', R', hsls', _, _, hups, hrevs⟩
    · rw [hsls] at hsls'
      cases hsls'
    · rw [hsls] at hsls'
      simp only [Option.some_inj, Prod.mk.injEq] at hsls'
      obtain ⟨hUeq, hReq⟩ := hsls'
      have hupeq : ps.upstream_version = pv.upstream_version := by
        rw [hups, ← hUeq, ← hupv]
      have hRvalid : ∀ c ∈ R, isVersionChar c = true := fun c hc =>
        isVersionChar_eq c (revisionCharOk_version_char c (hrevv_ok R hrevv c hc))
      have hcmp : compareVersionStr (R ++ '~' :: t) R = .lt :=
        compareVersionStr_tilde_lt R t hRvalid ht1
      simp [Version.cmp, hepoch_eq, natCompare_self, hupeq, compareVersionStr_self,
        hrevs, hrevv, ← hReq, hcmp]

/-! ## Dependency filter lemmas -/

/-- Unfolding of `Dependency::filter` one relation at a time. -/
theorem dependency_filter_cons (r : Relation) (rs : List Relation)
    (fn : Package → Bool) :
    (Dependency.filter ⟨r :: rs⟩ fn).relations
      = (if (r.packages.filter fn).isEmpty
         then (Dependency.filter ⟨rs⟩ fn).relations
         else ⟨r.packages.filter fn⟩ :: (Dependency.filter ⟨rs⟩ fn).relations) := by
  simp only [Dependency.filter, List.foldr]

/-- Membership in a filtered dependency: a package appears in the result iff
it satisfies the predicate and appeared in the input. -/
theorem dependency_filter_mem_iff (d : Dependency) (fn : Package → Bool)
    (p : Package) :
    (∃ r ∈ (d.filter fn).relations, p ∈ r.packages)
      ↔ (fn p = true ∧ ∃ r ∈ d.relations, p ∈ r.packages) := by
  cases d with
  | mk rels =>
    induction rels with
    | nil => simp [Dependency.filter]
    | cons r rs ih =>
      rw [show (Dependency.mk (r :: rs)).filter fn
          = ⟨(Dependency.filter ⟨r :: rs⟩ fn).relations⟩ from rfl,
        dependency_filter_cons r rs fn]
      by_cases hemp : (r.packages.filter fn).isEmpty
      · rw [if_pos hemp]
        have hnot : ¬ (fn p = true ∧ p ∈ r.packages) := by
          rintro ⟨hfn, hmem⟩
          have : p ∈ r.packages.filter fn := List.mem_filter.mpr ⟨hmem, hfn⟩
          rw [List.isEmpty_iff.mp hemp] at this
          cases this
        constructor
        · intro hex
          obtain ⟨hfn, r', hr', hp⟩ := (ih).mp hex
          exact ⟨hfn, r', by simp [hr'], hp⟩
        · rintro ⟨hfn, r', hr', hp⟩
          rcases List.mem_cons.mp hr' with hr' | hr'
          · subst hr'
            exact absurd ⟨hfn, hp⟩ hnot
          · exact ih.mpr ⟨hfn, r', hr', hp⟩
      · rw [if_neg hemp]
        constructor
        · rintro ⟨r', hr', hp⟩
          rcases List.mem_cons.mp hr' with hr' | hr'
          · subst hr'
            obtain ⟨hmem, hfn⟩ := List.mem_filter.mp hp
            exact ⟨hfn, r, by simp, hmem⟩
          · obtain ⟨hfn, r'', hr'', hp'⟩ := ih.mp ⟨r', hr', hp⟩
            exact ⟨hfn, r'', by simp [hr''], hp'⟩
        · rintro ⟨hfn, r', hr', hp⟩
          rcases List.mem_cons.mp hr' with hr' | hr'
          · subst hr'
            exact ⟨⟨r'.packages.filter fn⟩, by simp, List.mem_filter.mpr ⟨hp, hfn⟩⟩
          · obtain ⟨r'', hr'', hp'⟩ := ih.mpr ⟨hfn, r', hr', hp⟩
            exact ⟨r'', by simp [hr''], hp'⟩

/-- Relation-level statement of filter idempotence. -/
theorem dependency_filter_idem_rels (rels : List Relation) (fn : Package → Bool) :
    (Dependency.filter ⟨(Dependency.filter ⟨rels⟩ fn).relations⟩ fn).relations
      = (Dependency.filter ⟨rels⟩ fn).relations := by
  induction rels with
  | nil => rfl
  | cons r rs ih =>
    rw [dependency_filter_cons r rs fn]
    by_cases hemp : (r.packages.filter fn).isEmpty
    · rw [if_pos hemp]
      exact ih
    · rw [if_neg hemp]
      rw [dependency_filter_cons]
      have hps : (r.packages.filter fn).filter fn = r.packages.filter fn := by
        rw [List.filter_filter]
        congr 1
        funext a
        simp
      rw [hps, if_neg hemp, ih]

/-- `Dependency::filter` with the same predicate twice equals one pass. -/
theorem dependency_filter_idem (d : Dependency) (fn : Package → Bool) :
    (d.filter fn).filter fn = d.filter fn := by
  cases d with
  | mk rels => exact congrArg Dependency.mk (dependency_filter_idem_rels rels fn)

/-! ## Claim theorems -/

/-- C1: the spec says a missing run of either kind is treated as empty, so
that run-wise prefixes such as `"1.0."` versus `"1.0.2"` are decided by the
extra runs.  The code's `zip` truncates instead: both strings parse as valid
versions, yet the comparison of `"1.0."` with `"1.0.2"` (and with `"1.0.1"`)
returns `Equal` while `"1.0.1" < "1.0.2"`, so the extra runs are silently
dropped and the derived equivalence is not even transitive. -/
theorem c1_runwise_prefix_truncated :
    Version.fromStr "1.0.".toList = .ok ⟨none, "1.0.".toList, none⟩
    ∧ Version.fromStr "1.0.2".toList = .ok ⟨none, "1.0.2".toList, none⟩
    ∧ Version.cmp ⟨none, "1.0.".toList, none⟩ ⟨none, "1.0.2".toList, none⟩ = .eq
    ∧ compareVersionStr "1.0.".toList "1.0.2".toList = .eq
    ∧ compareVersionStr "1.0.".toList "1.0.1".toList = .eq
    ∧ compareVersionStr "1.0.1".toList "1.0.2".toList = .lt := by
  decide

/-- C5: version comparison treats an absent epoch as 0 and an absent revision
as `"0"`, and ignores leading zeros in digit runs: each of the four quoted
pairs parses as shown and compares `Equal`. -/
theorem c5_epoch_revision_defaults :
    (Version.fromStr "1".toList = .ok ⟨none, ['1'], none⟩
      ∧ Version.fromStr "0:1".toList = .ok ⟨some 0, ['1'], none⟩
      ∧ Version.cmp ⟨none, ['1'], none⟩ ⟨some 0, ['1'], none⟩ = .eq)
    ∧ (Version.fromStr "1-0".toList = .ok ⟨none, ['1'], some ['0']⟩
      ∧ Version.cmp ⟨none, ['1'], none⟩ ⟨none, ['1'], some ['0']⟩ = .eq)
    ∧ (Version.fromStr "1.0000-1".toList = .ok ⟨none, "1.0000".toList, some ['1']⟩
      ∧ Version.fromStr "1.0-1".toList = .ok ⟨none, "1.0".toList, some ['1']⟩
      ∧ Version.cmp ⟨none, "1.0000".toList, some ['1']⟩
          ⟨none, "1.0".toList, some ['1']⟩ = .eq)
    ∧ (Version.fromStr "0".toList = .ok ⟨none, ['0'], none⟩
      ∧ Version.fromStr "0:0-0".toList = .ok ⟨some 0, ['0'], some ['0']⟩
      ∧ Version.cmp ⟨none, ['0'], none⟩ ⟨some 0, ['0'], some ['0']⟩ = .eq) := by
  decide

/-- C10: equality of `Version` values is structural (field-by-field), not
derived from the ordering: `"1"` and `"0:1"` (and `"1"` and `"1-0"`) parse to
structurally different values that nevertheless compare `Equal`. -/
theorem c10_structural_eq_vs_cmp :
    Version.fromStr "1".toList = .ok ⟨none, ['1'], none⟩
    ∧ Version.fromStr "0:1".toList = .ok ⟨some 0, ['1'], none⟩
    ∧ Version.fromStr "1-0".toList = .ok ⟨none, ['1'], some ['0']⟩
    ∧ Version.cmp ⟨none, ['1'], none⟩ ⟨some 0, ['1'], none⟩ = .eq
    ∧ (⟨none, ['1'], none⟩ : Version) ≠ ⟨some 0, ['1'], none⟩
    ∧ Version.cmp ⟨none, ['1'], none⟩ ⟨none, ['1'], some ['0']⟩ = .eq
    ∧ (⟨none, ['1'], none⟩ : Version) ≠ ⟨none, ['1'], some ['0']⟩ := by
  decide

/-- C4 (counterexample): the unrestricted tilde law fails when the suffix `t`
contains a hyphen and `v` has a revision: with `v = "1-1"` and `t = "0-0"`,
both strings parse, but appending `"~0-0"` re-splits the string at its last
hyphen, moving the old revision into the upstream, and the result compares
strictly *greater* than `v`. -/
theorem c4_tilde_counterexample :
    Version.fromStr "1-1".toList = .ok ⟨none, ['1'], some ['1']⟩
    ∧ Version.fromStr "1-1~0-0".toList = .ok ⟨none, "1-1~0".toList, some ['0']⟩
    ∧ Version.cmp ⟨none, "1-1~0".toList, some ['0']⟩ ⟨none, ['1'], some ['1']⟩ = .gt := by
  decide

/-- C4 (amended): the tilde law restricted to suffixes without a hyphen: for
every string `v` and every (possibly empty) suffix `t` of version characters
not containing `-`, if both `v` and `v ++ "~" ++ t` parse as versions then
the extended version compares strictly below `v`.  (With `t` empty this also
gives `parse(v ++ "~~") < parse(v ++ "~")`, instantiating `v` at `v ++ "~"`.) -/
theorem c4_tilde_law_amended :
    ∀ (v t : List Char) (pv ps : Version),
      (∀ c ∈ t, isVersionChar c = true) → '-' ∉ t →
      Version.fromStr v = .ok pv →
      Version.fromStr (v ++ '~' :: t) = .ok ps →
      ps.cmp pv = .lt :=
  fun v t pv ps h1 h2 h3 h4 => tilde_append_cmp_lt v t pv ps h1 h2 h3 h4

/-- Witness for C4: the amended law applied at `v = "1.0"`, `t = "rc1"`. -/
theorem c4_tilde_law_amended_witness :
    (∀ c ∈ "rc1".toList, isVersionChar c = true) ∧ '-' ∉ "rc1".toList
    ∧ Version.fromStr "1.0".toList = .ok ⟨none, "1.0".toList, none⟩
    ∧ Version.fromStr "1.0~rc1".toList = .ok ⟨none, "1.0~rc1".toList, none⟩
    ∧ Version.cmp ⟨none, "1.0~rc1".toList, none⟩ ⟨none, "1.0".toList, none⟩ = .lt :=
  ⟨by decide, by decide, by decide, by decide,
    c4_tilde_law_amended "1.0".toList "rc1".toList
      ⟨none, "1.0".toList, none⟩ ⟨none, "1.0~rc1".toList, none⟩
      (by decide) (by decide) (by decide) (by decide)⟩

/-- Evaluation of `parseU64` on an all-digit string. -/
theorem parseU64_digits (e : List Char) (hne : e ≠ [])
    (hdig : ∀ c ∈ e, isAsciiDigit c = true) :
    parseU64 e = if digitsToNat e ≤ u64Max then some (digitsToNat e) else none := by
  simp only [parseU64]
  generalize hds : (match e with | '+' :: rest => rest | _ => e) = ds
  have hde : ds = e := by
    split at hds
    · rename_i rest
      have := hdig '+' (by simp)
      cases this
    · exact hds.symm
  subst hde
  have hempty : ds.isEmpty = false := by
    cases ds
    · exact absurd rfl hne
    · rfl
  have hall : ds.all isAsciiDigit = true := List.all_eq_true.mpr hdig
  simp [hempty, hall]

/-- C8 (amended): parsing rejects any epoch whose digits denote a value above
`i32::MAX` with the invalid-epoch error, but `Version::from_parts` performs
no epoch bound check (its `check` only validates characters), so a `Version`
carrying an epoch above the bound can be constructed. -/
theorem c8_epoch_bound_amended :
    (∀ (e rest : List Char), e ≠ [] → (∀ c ∈ e, isAsciiDigit c = true) →
      digitsToNat e > i32Max →
      Version.fromStr (e ++ ':' :: rest) = .error .InvalidEpoch)
    ∧ Version.from_parts (some 2147483648) ['1'] none
        = .ok ⟨some 2147483648, ['1'], none⟩ := by
  constructor
  · intro e rest hne hdig hbig
    have hhead : ∀ c, (e ++ ':' :: rest).head? = some c → isRustWhitespace c = false := by
      cases e with
      | nil => exact absurd rfl hne
      | cons c0 cs0 =>
        intro c hc
        simp only [List.cons_append, List.head?_cons, Option.some_inj] at hc
        subst hc
        exact version_char_not_whitespace c0
          (Or.inr (by simpa [isVersionDigit] using hdig c0 (by simp)))
    have htrim : rustTrim (e ++ ':' :: rest)
        = e ++ ':' :: (rest.reverse.dropWhile isRustWhitespace).reverse := by
      rw [rustTrim, dropWhile_eq_self_of_head _ _ hhead]
      have hrev : (e ++ ':' :: rest).reverse
          = rest.reverse ++ ':' :: e.reverse := by
        simp
      rw [hrev, dropWhile_append_cons _ _ _ _ (by decide)]
      simp
    have hsf : splitFirst ':' (rustTrim (e ++ ':' :: rest))
        = some (e, (rest.reverse.dropWhile isRustWhitespace).reverse) := by
      rw [htrim]
      apply splitFirst_append
      intro hm
      have := hdig ':' hm
      cases this
    simp only [Version.fromStr, hsf, parseU64_digits e hne hdig]
    by_cases hb : digitsToNat e ≤ u64Max
    · rw [if_pos hb]
      have : i32Max < digitsToNat e := hbig
      simp [this]
    · rw [if_neg hb]
  · decide

/-- C8 (counterexample): `Version::from_parts` accepts an epoch above
`i32::MAX`, contradicting the claim that no public constructor can build
such a `Version`. -/
theorem c8_from_parts_counterexample :
    Version.from_parts (some 2147483648) ['1'] none
      = .ok ⟨some 2147483648, ['1'], none⟩ ∧ 2147483648 > i32Max := by
  decide

/-- Witness for C8: the parse-rejection branch applied at the concrete input
`"2147483648:1"`. -/
theorem c8_epoch_bound_amended_witness :
    "2147483648".toList ≠ []
    ∧ (∀ c ∈ "2147483648".toList, isAsciiDigit c = true)
    ∧ digitsToNat "2147483648".toList > i32Max
    ∧ Version.fromStr ("2147483648".toList ++ ':' :: ['1']) = .error .InvalidEpoch :=
  ⟨by decide, by decide, by decide,
    c8_epoch_bound_amended.1 "2147483648".toList ['1'] (by decide) (by decide) (by decide)⟩

/-- C9 (amended): with the `hex` feature the digest codec accepts exactly the
strings of `2 * HASH_LEN` ASCII hex digits; without the `hex` feature only
emptiness and the exact byte length are checked, so content is not validated. -/
theorem c9_digest_codec_amended :
    ∀ (hashLen : Nat) (s : List Char), 0 < hashLen →
      ((digestFromStrHex hashLen s).isOk = true
        ↔ (s.length = hashLen * 2 ∧ s.all isAsciiHexDigit = true))
      ∧ ((digestFromStrNoHex hashLen s).isOk = true
        ↔ (s ≠ [] ∧ utf8Length s = hashLen * 2)) := by
  intro hashLen s hpos
  constructor
  · simp only [digestFromStrHex]
    by_cases h1 : s.isEmpty
    · have hs : s = [] := List.isEmpty_iff.mp h1
      subst hs
      simp only [List.isEmpty_nil, if_true, List.length_nil]
      constructor
      · intro h
        cases h
      · rintro ⟨h, _⟩
        omega
    · rw [if_neg h1]
      by_cases h2 : s.all isAsciiHexDigit
      · by_cases h3 : s.length % 2 = 0
        · have hcond : (!s.all isAsciiHexDigit || s.length % 2 != 0) = false := by
            simp [h2, h3]
          rw [hcond]
          simp only [Bool.false_eq_true, if_false]
          by_cases h4 : s.length / 2 = hashLen
          · have hc4 : (s.length / 2 != hashLen) = false := by simp [h4]
            rw [hc4]
            simp only [Bool.false_eq_true, if_false]
            constructor
            · intro _
              exact ⟨by omega, h2⟩
            · intro _
              rfl
          · have hc4 : (s.length / 2 != hashLen) = true := by simp [h4]
            rw [hc4]
            simp only [if_true]
            constructor
            · intro h
              cases h
            · rintro ⟨hl, _⟩
              exact absurd (by omega : s.length / 2 = hashLen) h4
        · have hcond : (!s.all isAsciiHexDigit || s.length % 2 != 0) = true := by
            simp [h2]
            omega
          rw [hcond]
          simp only [if_true]
          constructor
          · intro h
            cases h
          · rintro ⟨hl, _⟩
            exact absurd (by omega : s.length % 2 = 0) h3
      · have hcond : (!s.all isAsciiHexDigit || s.length % 2 != 0) = true := by
          simp [h2]
        rw [hcond]
        simp only [if_true]
        constructor
        · intro h
          cases h
        · rintro ⟨_, ha⟩
          exact absurd ha h2
  · simp only [digestFromStrNoHex]
    by_cases h1 : s.isEmpty
    · have hs : s = [] := List.isEmpty_iff.mp h1
      subst hs
      simp only [List.isEmpty_nil, if_true]
      constructor
      · intro h
        cases h
      · rintro ⟨h, _⟩
        exact absurd rfl h
    · rw [if_neg h1]
      by_cases h2 : utf8Length s = hashLen * 2
      · have hc : (utf8Length s != hashLen * 2) = false := by simp [h2]
        rw [hc]
        simp only [Bool.false_eq_true, if_false]
        constructor
        · intro _
          exact ⟨by simpa using h1, h2⟩
        · intro _
          rfl
      · have hc : (utf8Length s != hashLen * 2) = true := by simp [h2]
        rw [hc]
        simp only [if_true]
        constructor
        · intro h
          cases h
        · rintro ⟨_, hl⟩
          exact absurd hl h2

/-- C9 (counterexample): without the `hex` feature, a 32-character string of
`Z`s — not hex digits — is accepted by the MD5 digest codec. -/
theorem c9_nohex_counterexample :
    digestFromStrNoHex 16 (List.replicate 32 'Z') = .ok (List.replicate 32 'Z')
    ∧ (List.replicate 32 'Z').all isAsciiHexDigit = false := by
  decide

/-- Witness for C9: the hex-feature characterization applied to the MD5 empty
digest value. -/
theorem c9_digest_codec_amended_witness :
    (0 : Nat) < 16
    ∧ (digestFromStrHex 16 "d41d8cd98f00b204e9800998ecf8427e".toList).isOk = true :=
  ⟨by decide,
    ((c9_digest_codec_amended 16 "d41d8cd98f00b204e9800998ecf8427e".toList
      (by decide)).1).mpr (by decide)⟩

/-- One step of the control iterator (stable unfolding of the recursion). -/
theorem controlIterBufs_step (lines : List (List Char)) :
    controlIterBufs lines
      = match fromReaderBuf lines [] with
        | none => []
        | some (buf, rest) => buf :: controlIterBufs rest := by
  rw [controlIterBufs.eq_def]
  cases hfr : fromReaderBuf lines [] with
  | none => simp [hfr]
  | some p =>
    cases p with
    | mk a b => simp [hfr]

/-- C3 (counterexample): a separator line consisting of a space and a newline
does *not* terminate accumulation: the reader pushes it into the buffer and
hands the decoder a single buffer spanning both stanzas, and the iterator
yields a single record buffer instead of two. -/
theorem c3_whitespace_separator_counterexample :
    fromReaderBuf ["A: 1\n".toList, " \n".toList, "B: 2\n".toList] []
      = some ("A: 1\n \nB: 2\n".toList, [])
    ∧ controlIterBufs ["A: 1\n".toList, " \n".toList, "B: 2\n".toList]
      = ["A: 1\n \nB: 2\n".toList] := by
  constructor
  · decide
  · rw [controlIterBufs_step]
    simp only [show fromReaderBuf ["A: 1\n".toList, " \n".toList, "B: 2\n".toList] []
        = some ("A: 1\n \nB: 2\n".toList, []) from by decide]
    rw [controlIterBufs_step]
    simp only [show fromReaderBuf ([] : List (List Char)) [] = none from by decide]

/-- C3 (amended): only a line that `read_line` reports as a single byte — a
lone newline — terminates the current paragraph; any longer line (including
whitespace-only lines such as `" \n"`) is accumulated.  With a truly empty
separator line the reader stops there and decodes just the first stanza, and
the iterator yields two record buffers. -/
theorem c3_blank_line_strict_amended :
    (∀ (line : List Char) (rest : List (List Char)) (buf : List Char),
      2 ≤ utf8Length line →
      fromReaderBuf (line :: rest) buf = fromReaderBuf rest (buf ++ line))
    ∧ fromReaderBuf ["A: 1\n".toList, "\n".toList, "B: 2\n".toList] []
        = some ("A: 1\n\n".toList, ["B: 2\n".toList])
    ∧ controlIterBufs ["A: 1\n".toList, "\n".toList, "B: 2\n".toList]
        = ["A: 1\n\n".toList, "B: 2\n".toList] := by
  refine ⟨?_, by decide, ?_⟩
  · intro line rest buf hlen
    have hne : (utf8Length line == 1) = false := by
      simp only [beq_eq_false_iff_ne, ne_eq]
      omega
    simp [fromReaderBuf, hne]
  · rw [controlIterBufs_step]
    simp only [show fromReaderBuf ["A: 1\n".toList, "\n".toList, "B: 2\n".toList] []
        = some ("A: 1\n\n".toList, ["B: 2\n".toList]) from by decide]
    rw [controlIterBufs_step]
    simp only [show fromReaderBuf ["B: 2\n".toList] [] = some ("B: 2\n".toList, []) from by decide]
    rw [controlIterBufs_step]
    simp only [show fromReaderBuf ([] : List (List Char)) [] = none from by decide]

/-- Witness for C3: the accumulation clause applied to the whitespace-only
line `" \n"`. -/
theorem c3_blank_line_strict_amended_witness :
    2 ≤ utf8Length " \n".toList
    ∧ fromReaderBuf (" \n".toList :: []) "X: 1\n".toList
        = fromReaderBuf [] ("X: 1\n".toList ++ " \n".toList) :=
  ⟨by decide,
    c3_blank_line_strict_amended.1 " \n".toList [] "X: 1\n".toList (by decide)⟩

/-- C2 (counterexample): the group `<nodoc>` with active profiles
`{nodoc, cross}` is claimed satisfied (its positive atom `nodoc` is in the
active set), yet the code requires *every* active profile to match the atom,
so the formula does not match and `filter_for_build_profiles` drops the atom. -/
theorem c2_positive_profile_counterexample :
    BuildProfile.NoDoc ∈ [BuildProfile.NoDoc, BuildProfile.Cross]
    ∧ BuildProfileRestrictionFormula.matches
        ⟨[⟨[⟨false, .NoDoc⟩]⟩]⟩ [.NoDoc, .Cross] = false
    ∧ Dependency.filter_for_build_profiles
        ⟨[⟨[⟨"bar", none, none, none, some ⟨[⟨[⟨false, .NoDoc⟩]⟩]⟩⟩]⟩]⟩
        [.NoDoc, .Cross] = ⟨[]⟩ := by
  refine ⟨by decide, by decide, ?_⟩
  rfl

/-- C2 (amended): `filter_for_build_profiles` keeps an atom iff its formula
(if any) matches, where the formula matches iff every group contains some
constraint that *every* active profile matches individually; a negated
constraint `!p` matches `q` iff `p ≠ q`, and a positive constraint `p`
matches `q` iff `p = q` (so a positive constraint satisfies its group only
when every active profile equals it, not merely when it is a member). -/
theorem c2_build_profile_filter_amended :
    ∀ (f : BuildProfileRestrictionFormula) (active : List BuildProfile),
      (f.matches active = true
        ↔ ∀ g ∈ f.build_profile_constraints, ∃ c ∈ g.build_profiles,
            ∀ p ∈ active, c.matches p = true)
      ∧ (∀ (c : BuildProfileConstraint) (p : BuildProfile),
          c.matches p = true
            ↔ (if c.negated = true then c.build_profile ≠ p else c.build_profile = p))
      ∧ (∀ (d : Dependency) (pk : Package),
          (∃ r ∈ (d.filter_for_build_profiles active).relations, pk ∈ r.packages)
            ↔ (Dependency.buildProfileFilterFn active pk = true
                ∧ ∃ r ∈ d.relations, pk ∈ r.packages)) := by
  intro f active
  refine ⟨?_, ?_, ?_⟩
  · simp [BuildProfileRestrictionFormula.matches, BuildProfileConstraints.matches,
      List.all_eq_true, List.any_eq_true]
  · intro c p
    simp only [BuildProfileConstraint.matches]
    cases hneg : c.negated with
    | true => simp [beq_iff_eq]
    | false => simp [beq_iff_eq]
  · intro d pk
    exact dependency_filter_mem_iff d (Dependency.buildProfileFilterFn active) pk

/-- C6: a mixed-negation architecture constraint list is treated as always
satisfied — `matches` returns `true` for every target architecture, so
`filter_for_arch` never drops such an atom — while the separate `check`
reports `MixedNegations`. -/
theorem c6_mixed_arch_constraints :
    ∀ (cs : ArchConstraints) (a : Architecture),
      (∃ c ∈ cs.arches, c.negated = true) →
      (∃ c ∈ cs.arches, c.negated = false) →
      cs.matches a = true
      ∧ cs.check = .error .MixedNegations
      ∧ ∀ (d : Dependency) (pk : Package), pk.arch_constraints = some cs →
          (∃ r ∈ d.relations, pk ∈ r.packages) →
          ∃ r ∈ (d.filter_for_arch a).relations, pk ∈ r.packages := by
  intro cs a hneg hpos
  have hpol : cs.negation_policy = .error .MixedNegations := by
    simp only [ArchConstraints.negation_policy]
    obtain ⟨c1, hc1, hc1n⟩ := hneg
    obtain ⟨c2, hc2, hc2n⟩ := hpos
    have p1 : ¬ ∀ x ∈ cs.arches, x.negated = true := by
      intro hall
      have := hall c2 hc2
      rw [hc2n] at this
      cases this
    have p2 : ¬ ∀ x ∈ cs.arches, x.negated = false := by
      intro hall
      have := hall c1 hc1
      rw [hc1n] at this
      cases this
    simp [p1, p2]
  have hmatch : cs.matches a = true := by
    simp [ArchConstraints.matches, hpol]
  refine ⟨hmatch, by simp [ArchConstraints.check, hpol], ?_⟩
  intro d pk hpk hmem
  apply (dependency_filter_mem_iff d (Dependency.archFilterFn a) pk).mpr
  refine ⟨?_, hmem⟩
  simp [Dependency.archFilterFn, hpk, hmatch]

/-- Witness for C6: the mixed list `[amd64 !sparc]` against target `amd64`,
inside a one-relation dependency. -/
theorem c6_mixed_arch_constraints_witness :
    (∃ c ∈ [ArchConstraint.mk false Architecture.AMD64,
            ArchConstraint.mk true Architecture.SPARC], c.negated = true)
    ∧ (∃ c ∈ [ArchConstraint.mk false Architecture.AMD64,
              ArchConstraint.mk true Architecture.SPARC], c.negated = false)
    ∧ ArchConstraints.matches
        ⟨[⟨false, Architecture.AMD64⟩, ⟨true, Architecture.SPARC⟩]⟩
        Architecture.AMD64 = true
    ∧ ArchConstraints.check
        ⟨[⟨false, Architecture.AMD64⟩, ⟨true, Architecture.SPARC⟩]⟩
        = .error .MixedNegations :=
  ⟨by decide, by decide,
    (c6_mixed_arch_constraints
      ⟨[⟨false, Architecture.AMD64⟩, ⟨true, Architecture.SPARC⟩]⟩
      Architecture.AMD64 (by decide) (by decide)).1,
    (c6_mixed_arch_constraints
      ⟨[⟨false, Architecture.AMD64⟩, ⟨true, Architecture.SPARC⟩]⟩
      Architecture.AMD64 (by decide) (by decide)).2.1⟩

/-- C7: `filter_for_arch` is idempotent — applying it twice with the same
target architecture equals applying it once. -/
theorem c7_filter_for_arch_idempotent :
    ∀ (d : Dependency) (a : Architecture),
      (d.filter_for_arch a).filter_for_arch a = d.filter_for_arch a := by
  intro d a
  exact dependency_filter_idem d (Dependency.archFilterFn a)

end DebRs